import Mathlib

/-!
Verification development for the OpenAPI-to-markdown converter
(`convert.go` of duh-rpc/openapi-markdown.go).

The pure conversion pipeline of `convert.go` is embedded shallowly:
strings are Lean `String`s, ordered maps are association lists in
declaration order, fallible Go functions return `Except String`, and the
external collaborators (the libopenapi parser and the example-payload
generator of openapi-proto.go) are abstracted as oracle inputs.  The
recursive field-model extractor, the schema-usage analyzer and the
shared-definition renderer are not part of the sources at hand (only
their tests and plans are); those components are modelled from the
specification, and each such definition is marked
`Modelled from the spec:` in its doc comment.
-/

namespace OpenapiMD

/-- Decoded example payload values, the shallow embedding of a Go
`interface` value produced by decoding a yaml node or by unmarshalling
raw JSON.  Declared key order of maps is preserved as an ordered
association list. -/
inductive JsonValue where
  | str (s : String)
  | intVal (n : Int)
  | boolVal (b : Bool)
  | null
  | arr (items : List JsonValue)
  | obj (fields : List (String × JsonValue))

mutual

/-- Serialisation of a decoded value back to JSON text, the embedding of
`json.MarshalIndent` (indentation is not modelled character-for-character;
only the value-to-text correspondence matters for the claims, and the
function is injective on the shapes the claims exercise). -/
def marshal : JsonValue → String
  | .str s => "\"" ++ s ++ "\""
  | .intVal n => toString n
  | .boolVal b => if b then "true" else "false"
  | .null => "null"
  | .arr items => "[" ++ marshalItems items ++ "]"
  | .obj fields => "\x7b" ++ marshalFields fields ++ "\x7d"

/-- Comma-separated serialisation of array items. -/
def marshalItems : List JsonValue → String
  | [] => ""
  | [v] => marshal v
  | v :: rest => marshal v ++ ", " ++ marshalItems rest

/-- Comma-separated serialisation of object fields, in declared order. -/
def marshalFields : List (String × JsonValue) → String
  | [] => ""
  | [(k, v)] => "\"" ++ k ++ "\": " ++ marshal v
  | (k, v) :: rest => "\"" ++ k ++ "\": " ++ marshal v ++ ", " ++ marshalFields rest

end

/-- A yaml document node as handed over by the yaml library: recognised
shapes are scalars (string, integer, boolean, explicit null), mappings
with declared key order, and sequences; `other` stands for any node
shape the decoder does not recognise (alias nodes, zero-value nodes and
the like), carrying the kind's name. -/
inductive YamlNode where
  | scalarStr (s : String)
  | scalarInt (n : Int)
  | scalarBool (b : Bool)
  | scalarNull
  | mapping (entries : List (String × YamlNode))
  | sequence (items : List YamlNode)
  | other (kind : String)

mutual

/-- Modelled from the spec: the structured-example decoder (the
`decodeYAMLNode` collaborator lives in openapi-schema.go, outside these
sources).  Per the spec it must faithfully reconstruct nested
maps/sequences preserving declared key order, support scalars and
explicit null, and reject unrecognised node shapes with a descriptive
error rather than silently coercing them. -/
def decodeNode : YamlNode → Except String JsonValue
  | .scalarStr s => .ok (.str s)
  | .scalarInt n => .ok (.intVal n)
  | .scalarBool b => .ok (.boolVal b)
  | .scalarNull => .ok .null
  | .mapping entries => (decodeEntries entries).map JsonValue.obj
  | .sequence items => (decodeItems items).map JsonValue.arr
  | .other kind => .error ("cannot decode yaml node of unrecognized kind: " ++ kind)

/-- Decode the entries of a yaml mapping in declared order. -/
def decodeEntries : List (String × YamlNode) → Except String (List (String × JsonValue))
  | [] => .ok []
  | (k, v) :: rest => do
      let v' ← decodeNode v
      let rest' ← decodeEntries rest
      pure ((k, v') :: rest')

/-- Decode the items of a yaml sequence in order. -/
def decodeItems : List YamlNode → Except String (List JsonValue)
  | [] => .ok []
  | v :: rest => do
      let v' ← decodeNode v
      let rest' ← decodeItems rest
      pure (v' :: rest')

end

/-- A schema proxy as seen through libopenapi: either a `$ref` (with the
full reference text) or an inline schema body (`IsReference` false). -/
inductive SchemaProxy where
  | reference (ref : String)
  | inlineSchema

/-- One entry of a media type's ordered `examples` map; `value` is the
example's yaml value node, which may be absent. -/
structure ExampleEntry where
  name : String
  value : Option YamlNode

/-- A response media type: optional singular `example` node, ordered
`examples` list, optional schema proxy. -/
structure MediaType where
  exampleNode : Option YamlNode
  examples : List ExampleEntry
  schema : Option SchemaProxy

/-- Embedding of `getExampleFromMediaType` (convert.go): prefer the
singular example; on a decode failure fall through to the first entry of
the `examples` list; a failed first entry yields no example (later
entries are never consulted). -/
def getExampleFromMediaType (mt : MediaType) : String :=
  let fromList : String :=
    match mt.examples with
    | [] => ""
    | e :: _ =>
        match e.value with
        | none => ""
        | some node =>
            match decodeNode node with
            | .ok v => marshal v
            | .error _ => ""
  match mt.exampleNode with
  | some node =>
      match decodeNode node with
      | .ok v => marshal v
      | .error _ => fromList
  | none => fromList

/-- Embedding of strings.HasPrefix over the character sequence (the Go
original compares bytes; on the ASCII lead-ins used here the two
coincide). -/
def strHasLeadIn (s p : String) : Bool := s.data.take p.data.length = p.data

/-- Embedding of strings.TrimPrefix after a successful lead-in check:
drop that many leading characters. -/
def strDropChars (s : String) (n : Nat) : String := String.mk (s.data.drop n)

/-- Embedding of `extractSchemaName` (convert.go): strip the
`#/components/schemas/` lead-in of a `$ref`, rejecting malformed or
empty references. -/
def extractSchemaName (ref : String) : Except String String :=
  if strHasLeadIn ref "#/components/schemas/" then
    let name := strDropChars ref ("#/components/schemas/".data.length)
    if name = "" then .error ("empty schema name in reference: " ++ ref)
    else .ok name
  else .error ("invalid schema reference format: " ++ ref)

/-- A pre-generated raw JSON example for a named component schema, as
returned by the external generator: either it unmarshals to a value or
it is malformed. -/
inductive RawExample where
  | wellFormed (v : JsonValue)
  | malformed

/-- The pre-generated examples map, keyed by schema name. -/
abbrev ExamplesMap := List (String × RawExample)

/-- First value bound to a key in the examples map. -/
def lookupExample (examples : ExamplesMap) (n : String) : Option RawExample :=
  match examples.find? (fun x => x.1 = n) with
  | some x => some x.2
  | none => none

/-- Embedding of `getExampleFromSchema` (convert.go): a `nil` proxy
yields no example; an inline schema is a hard error; otherwise the
reference name is extracted and the pre-generated example is looked up
by that name (absent or malformed entries yield no example, not an
error). -/
def getExampleFromSchema (sp : Option SchemaProxy) (examples : ExamplesMap) :
    Except String String :=
  match sp with
  | none => .ok ""
  | some .inlineSchema => .error "inline schemas not supported in responses, use $ref"
  | some (.reference ref) =>
      match extractSchemaName ref with
      | .error e => .error e
      | .ok name =>
          match lookupExample examples name with
          | none => .ok ""
          | some .malformed => .ok ""
          | some (.wellFormed v) => .ok (marshal v)

/-- A response object: description and content, an ordered map from
media-type name to (possibly nil) media type. -/
structure Response where
  description : String
  content : List (String × Option MediaType)

/-- Embedding of `extractResponseExample` (convert.go): walk the content
entries in order, considering only `application/json`; an explicit media
type example wins; otherwise a schema-derived example is attempted, and
its hard errors abort; empty outcomes fall through to later entries. -/
def extractResponseExample (resp : Response) (examples : ExamplesMap) :
    Except String String :=
  go resp.content
where
  go : List (String × Option MediaType) → Except String String
    | [] => .ok ""
    | (mediaType, mtOpt) :: rest =>
        if mediaType ≠ "application/json" then go rest
        else
          match mtOpt with
          | none => go rest
          | some mt =>
              let explicit := getExampleFromMediaType mt
              if explicit ≠ "" then .ok explicit
              else
                match mt.schema with
                | none => go rest
                | some sp =>
                    match getExampleFromSchema (some sp) examples with
                    | .error e => .error e
                    | .ok generated => if generated ≠ "" then .ok generated else go rest

/-- Byte-order comparison of two character lists, the ordering used by
Go's `sort.Strings` (UTF-8 byte order coincides with code-point order). -/
def charListLe : List Char → List Char → Bool
  | [], _ => true
  | _ :: _, [] => false
  | a :: as, b :: bs =>
      if a.toNat < b.toNat then true
      else if b.toNat < a.toNat then false
      else charListLe as bs

/-- String comparison backing `sort.Strings`. -/
def strLeB (a b : String) : Bool := charListLe a.data b.data

/-- Ascending sort of a string list, the embedding of `sort.Strings`. -/
def sortStrings (l : List String) : List String :=
  List.insertionSort (fun a b => strLeB a b = true) l

/-- An operation parameter (name, `in` location, description, optional
required flag, and the first declared schema type when present). -/
structure Param where
  name : String
  location : String
  description : String
  required : Option Bool
  schemaType : Option String

/-- An operation: summary, description, tags, parameters and the ordered
response map (code, response) in declaration order. -/
structure Operation where
  summary : String
  description : String
  tags : List String
  parameters : List Param
  responses : List (String × Response)

/-- Embedding of one row of `renderParamTable` (convert.go). -/
def paramRow (p : Param) : String :=
  p.name ++ " | " ++ p.description ++ " | " ++
  (match p.required with | some true => "true" | _ => "false") ++ " | " ++
  (match p.schemaType with | some t => t | none => "") ++ "\n"

/-- Embedding of `renderParamTable` (convert.go): nothing for an empty
parameter list, else a named table of rows in declared order. -/
def renderParamTable (paramType : String) (params : List Param) : String :=
  if params.isEmpty then ""
  else
    "#### " ++ paramType ++ " Parameters\n\n" ++
    "Name | Description | Required | Type\n" ++
    "-----|-------------|----------|-----\n" ++
    String.join (params.map paramRow) ++ "\n"

/-- Embedding of `renderParameters` (convert.go): split by location into
path/query/header tables (other locations are dropped). -/
def renderParameters (op : Operation) : String :=
  renderParamTable "Path" (op.parameters.filter (fun p => p.location = "path")) ++
  renderParamTable "Query" (op.parameters.filter (fun p => p.location = "query")) ++
  renderParamTable "Header" (op.parameters.filter (fun p => p.location = "header"))

/-- Embedding of Responses.Codes.GetOrZero: first response bound to a
code, zero value when absent. -/
def lookupResponse (rs : List (String × Response)) (code : String) : Response :=
  match rs.find? (fun x => x.1 = code) with
  | some x => x.2
  | none => ⟨"", []⟩

/-- The order in which `renderResponses` (convert.go) emits per-code
response sections: the declared status codes sorted ascending by
`sort.Strings`, regardless of declaration order. -/
def responsesRenderOrder (rs : List (String × Response)) : List String :=
  sortStrings (rs.map Prod.fst)

/-- Embedding of `renderResponses` (convert.go): emit one section per
status code in `responsesRenderOrder`; an example-extraction error
aborts. -/
def renderResponses (op : Operation) (examples : ExamplesMap) : Except String String :=
  goCodes (responsesRenderOrder op.responses)
where
  goCodes : List String → Except String String
    | [] => .ok ""
    | code :: rest =>
        let resp := lookupResponse op.responses code
        let head :=
          "##### " ++ code ++ " Response\n\n" ++
          (if resp.description ≠ "" then resp.description ++ "\n\n" else "")
        match extractResponseExample resp examples with
        | .error e => .error e
        | .ok ex =>
            let block := if ex ≠ "" then "```json\n" ++ ex ++ "\n```\n\n" else ""
            match goCodes rest with
            | .error e => .error e
            | .ok tail => .ok (head ++ block ++ tail)

/-- ASCII uppercase conversion of one character (`strings.ToUpper`,
restricted to the ASCII range the HTTP method names live in). -/
def upperChar (c : Char) : Char :=
  if 97 ≤ c.toNat ∧ c.toNat ≤ 122 then Char.ofNat (c.toNat - 32) else c

/-- Uppercase a whole string (strings.ToUpper). -/
def upperStr (s : String) : String := String.mk (s.data.map upperChar)

/-- One extracted endpoint (convert.go `endpoint` struct). -/
structure Endpoint where
  method : String
  path : String
  summary : String
  description : String
  tags : List String
  operation : Operation

/-- The built OpenAPI 3.x document model, reduced to what the converter
reads: path items in declaration order, each with its operations in
iteration order. -/
structure DocModel where
  paths : List (String × List (String × Operation))

/-- Embedding of `extractEndpoints` (convert.go). -/
def extractEndpoints (model : DocModel) : List Endpoint :=
  model.paths.flatMap fun pathPair =>
    pathPair.2.map fun opPair =>
      { method := upperStr opPair.1
        path := pathPair.1
        summary := opPair.2.summary
        description := opPair.2.description
        tags := opPair.2.tags
        operation := opPair.2 }

/-- Append an endpoint to a tag's bucket, creating the bucket on first
use (Go map insertion with `append`). -/
def addToGroup (gs : List (String × List Endpoint)) (tag : String) (e : Endpoint) :
    List (String × List Endpoint) :=
  match gs with
  | [] => [(tag, [e])]
  | (t, es) :: rest =>
      if t = tag then (t, es ++ [e]) :: rest else (t, es) :: addToGroup rest tag e

/-- Embedding of `groupByTags` (convert.go): untagged operations fall into
the "Default APIs" group; tagged operations join every one of their tags'
groups. -/
def groupByTags (endpoints : List Endpoint) : List (String × List Endpoint) :=
  endpoints.foldl
    (fun gs e =>
      if e.tags.isEmpty then addToGroup gs "Default APIs" e
      else e.tags.foldl (fun gs' tag => addToGroup gs' tag e) gs)
    []

/-- ASCII lowercase conversion of one character (`strings.ToLower`,
restricted to ASCII, which covers HTTP methods, route paths and schema
names). -/
def lowerChar (c : Char) : Char :=
  if 65 ≤ c.toNat ∧ c.toNat ≤ 90 then Char.ofNat (c.toNat + 32) else c

/-- Lowercase a whole string (strings.ToLower). -/
def lowerStr (s : String) : String := String.mk (s.data.map lowerChar)

/-- Character class of the anchor regular expression: `[a-z0-9]`
(everything else belongs to a run that is replaced by the empty
string). -/
def isAnchorChar (c : Char) : Bool :=
  decide ((97 ≤ c.toNat ∧ c.toNat ≤ 122) ∨ (48 ≤ c.toNat ∧ c.toNat ≤ 57))

mutual

/-- The anchor regular-expression replacement: scan the text, copying
`[a-z0-9]` characters and replacing each maximal run of other characters
with the empty string (outside-a-run state). -/
def stripRuns : List Char → List Char
  | [] => []
  | c :: rest => if isAnchorChar c then c :: stripRuns rest else stripRunsInRun rest

/-- Inside a non-matching run: keep consuming the run (its replacement is
empty), re-entering copy mode at the next matching character. -/
def stripRunsInRun : List Char → List Char
  | [] => []
  | c :: rest => if isAnchorChar c then c :: stripRuns rest else stripRunsInRun rest

end

/-- Embedding of `makeAnchor` (convert.go): lowercase `method ++ " " ++
path`, then replace every `[^a-z0-9]+` run with the empty string. -/
def makeAnchor (method path : String) : String :=
  String.mk (stripRuns (lowerStr (method ++ " " ++ path)).data)

/-- Modelled from the spec: the shared-definition anchor is derived from
the schema name by the same anchor-safe transformation (the
shared-definitions renderer is not part of these sources; its test
expects `See [User](#user)`). -/
def makeSchemaAnchor (name : String) : String :=
  String.mk (stripRuns (lowerStr name).data)

/-- The claim's reading of an anchor: the source text lowercased, then
every maximal run of non-alphanumeric characters collapsed (replaced by
nothing) — which removes exactly the non-`[a-z0-9]` characters. -/
def anchorSpecText (t : String) : String :=
  String.mk ((lowerStr t).data.filter isAnchorChar)

/-- One table-of-contents row (convert.go `generateMarkdown`). -/
def tocRow (e : Endpoint) : String :=
  e.method ++ " [" ++ e.path ++ "](#" ++ makeAnchor e.method e.path ++ ") | " ++
  e.summary ++ "\n"

/-- The table-of-contents block (convert.go `generateMarkdown`). -/
def tocBlock (endpoints : List Endpoint) : String :=
  "## Table of Contents\n\n" ++
  "HTTP Request | Description\n" ++
  "-------------|------------\n" ++
  String.join (endpoints.map tocRow) ++ "\n"

/-- Tag iteration order of `generateMarkdown`: keys sorted ascending,
then "Default APIs" moved to the end when present. -/
def orderedTags (gs : List (String × List Endpoint)) : List String :=
  let tags := sortStrings (gs.map Prod.fst)
  if "Default APIs" ∈ tags then tags.erase "Default APIs" ++ ["Default APIs"] else tags

/-- Bucket bound to a tag (Go map read; empty when absent). -/
def lookupGroup (gs : List (String × List Endpoint)) (tag : String) : List Endpoint :=
  match gs.find? (fun x => x.1 = tag) with
  | some x => x.2
  | none => []

/-- The heading text of one endpoint section (convert.go
`generateMarkdown` inner loop). -/
def endpointHeader (e : Endpoint) : String :=
  "### " ++ e.method ++ " " ++ e.path ++ "\n\n" ++ e.summary ++ "\n\n" ++
  (if e.description ≠ "" ∧ e.description ≠ e.summary then e.description ++ "\n\n" else "")

/-- One endpoint's full section: heading, parameter tables, response
sections (the latter may abort with an error). -/
def renderEndpointSection (e : Endpoint) (examples : ExamplesMap) : Except String String :=
  match renderResponses e.operation examples with
  | .error err => .error err
  | .ok responses => .ok (endpointHeader e ++ renderParameters e.operation ++ responses)

/-- Render a tag group's endpoints in order, aborting on the first
error. -/
def renderEndpointList (examples : ExamplesMap) : List Endpoint → Except String String
  | [] => .ok ""
  | e :: rest =>
      match renderEndpointSection e examples with
      | .error err => .error err
      | .ok s =>
          match renderEndpointList examples rest with
          | .error err => .error err
          | .ok t => .ok (s ++ t)

/-- Render the tag sections in iteration order, aborting on the first
error. -/
def renderTagSections (gs : List (String × List Endpoint)) (examples : ExamplesMap) :
    List String → Except String String
  | [] => .ok ""
  | tag :: rest =>
      match renderEndpointList examples (lookupGroup gs tag) with
      | .error err => .error err
      | .ok body =>
          match renderTagSections gs examples rest with
          | .error err => .error err
          | .ok t => .ok ("## " ++ tag ++ "\n\n" ++ body ++ t)

/-- Conversion options (convert.go `ConvertOptions`; the Debug flag only
adds observability data and is not modelled further). -/
structure ConvertOptions where
  title : String
  description : String
  debug : Bool := false

/-- Conversion result (convert.go `ConvertResult`; the optional debug
payload is observability-only and not modelled). -/
structure ConvertResult where
  markdown : String
  endpointCount : Nat
  tagCount : Nat

/-- Embedding of `generateMarkdown` (convert.go): title, optional
description, and — when endpoints exist — the table of contents followed
by the tag sections. -/
def generateMarkdown (opts : ConvertOptions) (endpoints : List Endpoint)
    (tagGroups : List (String × List Endpoint)) (examples : ExamplesMap) :
    Except String String :=
  let headText :=
    "# " ++ opts.title ++ "\n\n" ++
    (if opts.description ≠ "" then opts.description ++ "\n\n" else "")
  if endpoints.isEmpty then .ok headText
  else
    match renderTagSections tagGroups examples (orderedTags tagGroups) with
    | .error e => .error e
    | .ok sections => .ok (headText ++ tocBlock endpoints ++ sections)

/-- The external collaborators of `Convert`, abstracted as an oracle:
what `libopenapi.NewDocument` reports (a parse error or the document's
version string), what `BuildV3Model` returns (an error, a nil model, or
the model), and what the external example generator produces. -/
structure ParseOracle where
  newDocument : Except String String
  buildV3Model : Except String (Option DocModel)
  protoExamples : Except String ExamplesMap

/-- Embedding of `generateComponentExamples` (convert.go): a generator
failure is swallowed — empty map, nil error — so this function is
total. -/
def generateComponentExamples (oracle : ParseOracle) : ExamplesMap :=
  match oracle.protoExamples with
  | .error _ => []
  | .ok m => m

/-- Embedding of `Convert` (convert.go), returning the Go pair
`(*ConvertResult, error)` as `Option ConvertResult × Option String`.
The guards run in source order: empty input, empty title, document
parsing, version checks, model building, markdown generation. -/
def Convert (openapi : String) (opts : ConvertOptions) (oracle : ParseOracle) :
    Option ConvertResult × Option String :=
  if openapi = "" then (none, some "openapi input cannot be empty")
  else if opts.title = "" then (none, some "title cannot be empty")
  else
    match oracle.newDocument with
    | .error e => (none, some ("failed to parse openapi document: " ++ e))
    | .ok version =>
        if version = "" then (none, some "failed to determine openapi version")
        else if ¬ strHasLeadIn version "3." then
          (none, some ("only openapi 3.x is supported, got version: " ++ version))
        else
          match oracle.buildV3Model with
          | .error e => (none, some ("failed to build openapi 3.x model: " ++ e))
          | .ok none => (none, some "only openapi 3.x is supported")
          | .ok (some model) =>
              let examples := generateComponentExamples oracle
              let endpoints := extractEndpoints model
              let tagGroups := groupByTags endpoints
              match generateMarkdown opts endpoints tagGroups examples with
              | .error e => (none, some e)
              | .ok markdown =>
                  (some ⟨markdown, endpoints.length, tagGroups.length⟩, none)

/-!
The remaining components — the recursive field-model extractor, the
schema-usage analyzer and the shared-definition renderer — are exercised
by the repository's tests but their implementation file is not among
these sources.  They are modelled from the specification (sections 3,
4.1, 4.2 and 4.4).
-/

/-- Modelled from the spec: the shape of one schema property — scalar,
named reference, array of scalars, array of a named reference, or an
inline (anonymous) object, possibly inside an array. -/
inductive PropKind where
  | scalar (typeName : String)
  | refSchema (name : String)
  | arrayScalar (typeName : String)
  | arrayRefSchema (name : String)
  | inlineObject
  | arrayInlineObject
deriving DecidableEq

/-- Modelled from the spec: one ordered property of a schema node. -/
structure SchemaProperty where
  name : String
  kind : PropKind
  required : Bool
  description : String
  enums : List String

/-- Modelled from the spec: a named schema node, reduced to its ordered
property list (composite-member merging, descriptions of the node itself
and discriminators play no role in the claims at hand). -/
structure SchemaNode where
  properties : List SchemaProperty

/-- The document's named-schema graph, keyed by schema name in
declaration order. -/
abbrev Graph := List (String × SchemaNode)

/-- Look a schema up by name. -/
def lookupSchema (g : Graph) (n : String) : Option SchemaNode :=
  match g.find? (fun x => x.1 = n) with
  | some x => some x.2
  | none => none

/-- Modelled from the spec: VisitState, the schema-name → recursion-count
mapping scoped to one top-level extraction.  The count is incremented
before descending; siblings see the caller's state again, which realises
the spec's decrement-on-return. -/
abbrev VisitState := List (String × Nat)

/-- Current visit count of a name (0 when unvisited). -/
def visitCount (st : VisitState) (n : String) : Nat :=
  match st.find? (fun x => x.1 = n) with
  | some x => x.2
  | none => 0

/-- Increment a name's visit count (registering it on first visit). -/
def bumpVisit (st : VisitState) (n : String) : VisitState :=
  match st with
  | [] => [(n, 1)]
  | (m, c) :: rest => if m = n then (m, c + 1) :: rest else (m, c) :: bumpVisit rest n

/-- The depth of the current expansion path: the total of all in-progress
visit counts.  (The spec's depth rule halts expansion once this reaches
the configured ceiling; along any call path the total equals the number
of named expansions in progress.) -/
def visitTotal (st : VisitState) : Nat := (st.map Prod.snd).sum

/-- Modelled from the spec: one extracted field descriptor — name,
declared scalar type, required flag, description, enum list, the
isArray/isObjectLike markers and the referenced schema name (empty for
inline bodies). -/
structure FieldDescriptor where
  name : String
  typeName : String
  required : Bool
  description : String
  enums : List String
  isArray : Bool
  isObjectLike : Bool
  refName : String

/-- Modelled from the spec: a fully expanded, independently renderable
definition section — name, ordered fields, and the nested definition
sections discovered while expanding it. -/
inductive SchemaDefinition where
  | mk (name : String) (fields : List FieldDescriptor) (nested : List SchemaDefinition)

/-- Name of a definition section. -/
def SchemaDefinition.name : SchemaDefinition → String
  | .mk n _ _ => n

/-- Fields of a definition section. -/
def SchemaDefinition.fields : SchemaDefinition → List FieldDescriptor
  | .mk _ fs _ => fs

/-- Nested definition sections of a definition section. -/
def SchemaDefinition.nested : SchemaDefinition → List SchemaDefinition
  | .mk _ _ ds => ds

/-- The field descriptor a property contributes (required flag from the
merged required set, type label data from the declared shape). -/
def descriptorOf (p : SchemaProperty) : FieldDescriptor :=
  match p.kind with
  | .scalar t =>
      ⟨p.name, t, p.required, p.description, p.enums, false, false, ""⟩
  | .refSchema n =>
      ⟨p.name, "", p.required, p.description, p.enums, false, true, n⟩
  | .arrayScalar t =>
      ⟨p.name, t, p.required, p.description, p.enums, true, false, ""⟩
  | .arrayRefSchema n =>
      ⟨p.name, "", p.required, p.description, p.enums, true, true, n⟩
  | .inlineObject =>
      ⟨p.name, "", p.required, p.description, p.enums, false, true, ""⟩
  | .arrayInlineObject =>
      ⟨p.name, "", p.required, p.description, p.enums, true, true, ""⟩

/-- The nested named schema a property points at, when any: a direct
named reference or a named reference through an array's items. -/
def refTarget : PropKind → Option String
  | .refSchema n => some n
  | .arrayRefSchema n => some n
  | _ => none

/-- Modelled from the spec: the renderer's exact type-label algorithm —
array of scalar: `<scalarType> array`; array of named object: `array of
<ReferencedName>` (falling back to `array of objects` when unnamed);
plain named object: the name (falling back to `object`); otherwise the
scalar type verbatim. -/
def typeLabel (fd : FieldDescriptor) : String :=
  if fd.isArray ∧ fd.isObjectLike then
    (if fd.refName ≠ "" then "array of " ++ fd.refName else "array of objects")
  else if fd.isObjectLike then
    (if fd.refName ≠ "" then fd.refName else "object")
  else if fd.isArray then fd.typeName ++ " array"
  else fd.typeName

/-- Modelled from the spec: the recursive field-model extractor over one
property list.  Per property, a descriptor is always produced; a nested
named schema is expanded into an appended `SchemaDefinition` unless the
recursion rule blocks it (its visit count before incrementing is already
greater than 1), the depth rule blocks it (the path depth has reached the
ceiling), or the name does not resolve (such properties are skipped, not
errored).  The fuel argument only bounds the recursion for Lean; with
the fuel `extractTop` supplies it never runs out before the depth rule
fires. -/
def extractProps (g : Graph) (ceiling : Nat) :
    Nat → VisitState → List SchemaProperty →
    List FieldDescriptor × List SchemaDefinition
  | 0, _, props => (props.map descriptorOf, [])
  | fuel + 1, st, props =>
      props.foldr
        (fun p acc =>
          let nestedOut : Option SchemaDefinition :=
            match refTarget p.kind with
            | none => none
            | some n =>
                if visitCount st n > 1 then none
                else if ceiling ≤ visitTotal st then none
                else
                  match lookupSchema g n with
                  | none => none
                  | some node =>
                      let out := extractProps g ceiling fuel (bumpVisit st n) node.properties
                      some (.mk n out.1 out.2)
          (descriptorOf p :: acc.1, nestedOut.toList ++ acc.2))
        ([], [])

/-- Modelled from the spec: one top-level extraction of a named schema.
The top-level visit itself is counted (so a direct self-reference is
expanded exactly once more before the recursion rule blocks it), and the
fuel is the ceiling, which the depth rule makes sufficient. -/
def extractTop (g : Graph) (ceiling : Nat) (n : String) :
    List FieldDescriptor × List SchemaDefinition :=
  match lookupSchema g n with
  | none => ([], [])
  | some node => extractProps g ceiling ceiling (bumpVisit [] n) node.properties

mutual

/-- Every definition section of a tree, the section itself included,
in depth-first discovery order. -/
def defsDeepOne : SchemaDefinition → List SchemaDefinition
  | .mk n fs ds => .mk n fs ds :: defsDeep ds

/-- Every definition section of a forest, in depth-first discovery
order. -/
def defsDeep : List SchemaDefinition → List SchemaDefinition
  | [] => []
  | d :: rest => defsDeepOne d ++ defsDeep rest

end

/-- The names of every definition section of a forest, in depth-first
discovery order. -/
def defsNamesDeep (ds : List SchemaDefinition) : List String :=
  (defsDeep ds).map SchemaDefinition.name

/-!  Modelled from the spec, section 4.2: the schema-usage analyzer. -/

/-- One endpoint as the usage analyzer sees it: method, path, the
request body's named JSON schema reference (none when absent or inline)
and each response code's named JSON schema reference.  Inline bodies
never contribute usage records, hence only named references appear. -/
structure UsageEndpoint where
  method : String
  path : String
  requestRef : Option String
  responseRefs : List (String × Option String)

/-- The endpoint key `"METHOD PATH"`. -/
def endpointKey (e : UsageEndpoint) : String := e.method ++ " " ++ e.path

/-- Every named body reference of one endpoint, request first then
responses in declared order. -/
def bodyRefs (e : UsageEndpoint) : List String :=
  e.requestRef.toList ++ e.responseRefs.filterMap Prod.snd

/-- The usage records: one (schemaName, endpointKey) pair per named JSON
body reference, over the whole endpoint list. -/
def usagePairs (es : List UsageEndpoint) : List (String × String) :=
  es.flatMap fun e => (bodyRefs e).map fun n => (n, endpointKey e)

/-- The distinct endpoint keys from which a name is referenced (duplicate
request/response use inside one endpoint collapses to one key). -/
def usageKeys (es : List UsageEndpoint) (n : String) : List String :=
  (((usagePairs es).filter (fun x => x.1 = n)).map Prod.snd).dedup

/-- A name is shared when its distinct endpoint-key set has size ≥ 2. -/
def isShared (es : List UsageEndpoint) (n : String) : Prop :=
  2 ≤ (usageKeys es n).length

instance (es : List UsageEndpoint) (n : String) : Decidable (isShared es n) :=
  inferInstanceAs (Decidable (2 ≤ (usageKeys es n).length))

/-- Every name referenced anywhere, deduplicated in first-use order. -/
def usedNames (es : List UsageEndpoint) : List String :=
  ((usagePairs es).map Prod.fst).dedup

/-- The names rendered in the global shared block, one entry each. -/
def sharedNames (es : List UsageEndpoint) : List String :=
  (usedNames es).filter (fun n => decide (isShared es n))

/-!  Modelled from the spec, section 4.4: the document renderer's
shared-check and the global shared block. -/

/-- What one endpoint body site renders: a cross-reference line to the
globally rendered section, or an in-place expansion. -/
inductive BodySite where
  | crossref (name : String)
  | expanded (name : String) (fields : List FieldDescriptor) (nested : List SchemaDefinition)

/-- Modelled from the spec: the shared check precedes any extraction —
a named top-level schema in the shared map renders only a
cross-reference; otherwise the extractor runs in place. -/
def renderBodySite (g : Graph) (es : List UsageEndpoint) (ceiling : Nat)
    (ref : Option String) : Option BodySite :=
  match ref with
  | none => none
  | some n =>
      if isShared es n then some (.crossref n)
      else some (.expanded n (extractTop g ceiling n).1 (extractTop g ceiling n).2)

/-- One endpoint's rendered body sites (request first, then responses in
declared order). -/
structure EndpointDoc where
  key : String
  sites : List BodySite

/-- The per-endpoint documents. -/
def renderEndpointDocs (g : Graph) (es : List UsageEndpoint) (ceiling : Nat) :
    List EndpointDoc :=
  es.map fun e =>
    ⟨endpointKey e,
     (e.requestRef :: e.responseRefs.map Prod.snd).filterMap (renderBodySite g es ceiling)⟩

/-- The global shared block: one definition per shared name, with the
sorted, deduplicated list of referencing endpoint keys. -/
def sharedBlock (g : Graph) (es : List UsageEndpoint) (ceiling : Nat) :
    List (String × List String × (List FieldDescriptor × List SchemaDefinition)) :=
  (sharedNames es).map fun n => (n, sortStrings (usageKeys es n), extractTop g ceiling n)

/-- The expansion attempt `extractProps` makes for one property's
referenced schema (the body of its per-property match, exposed for
reasoning; definitionally equal to the inlined form). -/
def expandRef (g : Graph) (ceiling fuel : Nat) (st : VisitState) (k : PropKind) :
    Option SchemaDefinition :=
  match refTarget k with
  | none => none
  | some n =>
      if visitCount st n > 1 then none
      else if ceiling ≤ visitTotal st then none
      else
        match lookupSchema g n with
        | none => none
        | some node =>
            let out := extractProps g ceiling fuel (bumpVisit st n) node.properties
            some (.mk n out.1 out.2)

/-- The hard-error message for inline response bodies (convert.go
`getExampleFromSchema`), spelled as the claimed fragment plus its
continuation. -/
def inlineMsg : String := "inline schemas not supported" ++ " in responses, use $ref"

/-- A linear reference-chain property pointing at the next schema. -/
def chainProp (next : String) : SchemaProperty :=
  ⟨"next", .refSchema next, false, "", []⟩

/-- The terminal property of a reference chain. -/
def chainEndProp : SchemaProperty :=
  ⟨"value", .scalar "string", false, "", []⟩

/-- Body properties of a chain schema: a reference to the next name, or
the terminal scalar at the chain's end. -/
def chainBodyProps : List String → List SchemaProperty
  | [] => [chainEndProp]
  | n :: _ => [chainProp n]

/-- A synthetic reference chain: each named schema's single property
references the next name; the last carries a scalar. -/
def chainGraph : List String → Graph
  | [] => []
  | n :: rest => (n, ⟨chainBodyProps rest⟩) :: chainGraph rest

/-- The chain shape as found in an arbitrary graph: every chain member
resolves to its chain body. -/
def chainIn (g : Graph) : List String → Prop
  | [] => True
  | n :: rest => lookupSchema g n = some ⟨chainBodyProps rest⟩ ∧ chainIn g rest

/-- A response entry whose example extraction succeeds (possibly with no
example). -/
def respOk (ex : ExamplesMap) (cr : String × Response) : Prop :=
  ∃ s, extractResponseExample cr.2 ex = .ok s

/-- A response entry whose example extraction hits the inline-schema hard
error. -/
def respInlineErr (ex : ExamplesMap) (cr : String × Response) : Prop :=
  extractResponseExample cr.2 ex = .error inlineMsg

/-- An operation whose response codes are distinct (ordered-map keys) and
whose every response either extracts an example successfully or hits the
inline-schema hard error. -/
def opWellFormed (ex : ExamplesMap) (op : Operation) : Prop :=
  (op.responses.map Prod.fst).Nodup ∧
  ∀ cr ∈ op.responses, respOk ex cr ∨ respInlineErr ex cr

/-!  ## Supporting lemmas -/

theorem stripRuns_eq_filter : ∀ l : List Char,
    stripRuns l = l.filter isAnchorChar ∧ stripRunsInRun l = l.filter isAnchorChar := by
  intro l
  induction l with
  | nil => exact ⟨rfl, rfl⟩
  | cons c rest ih =>
      by_cases h : isAnchorChar c = true
      · simp [stripRuns, stripRunsInRun, List.filter_cons, h, ih.1]
      · simp [stripRuns, stripRunsInRun, List.filter_cons, h, ih.2]

theorem convert_nil_or_no_error (openapi : String) (opts : ConvertOptions)
    (oracle : ParseOracle) :
    (Convert openapi opts oracle).1 = none ∨ (Convert openapi opts oracle).2 = none := by
  unfold Convert
  repeat' split
  all_goals try simp
  split <;> simp

/-!  ## Claim theorems: anchors, guards, example priority -/

/-- Claim C8: every generated anchor identifier — the table-of-contents
link target built from an endpoint's method and path, and the
shared-definition anchor built from a schema name — equals the source
text lowercased with every maximal run of non-alphanumeric characters
collapsed (replaced by nothing). -/
theorem c8_anchor_identifiers (method path name : String) :
    makeAnchor method path = anchorSpecText (method ++ " " ++ path) ∧
    makeSchemaAnchor name = anchorSpecText name := by
  constructor
  · unfold makeAnchor anchorSpecText
    rw [(stripRuns_eq_filter _).1]
  · unfold makeSchemaAnchor anchorSpecText
    rw [(stripRuns_eq_filter _).1]

/-- Claim C9: Convert returns a nil result and a non-nil error whenever
the input is empty or the Title option is empty — in both cases before
consulting the parser, witnessed by the outcome being the same for every
parse oracle — and on every other error path the returned result is also
nil. -/
theorem c9_convert_nil_on_error (openapi : String) (opts : ConvertOptions)
    (oracle : ParseOracle) :
    (openapi = "" →
      Convert openapi opts oracle = (none, some "openapi input cannot be empty")) ∧
    (openapi ≠ "" → opts.title = "" →
      Convert openapi opts oracle = (none, some "title cannot be empty")) ∧
    (∀ e, (Convert openapi opts oracle).2 = some e →
      (Convert openapi opts oracle).1 = none) := by
  refine ⟨fun h => by simp [Convert, h], fun h1 h2 => by simp [Convert, h1, h2], ?_⟩
  intro e he
  rcases convert_nil_or_no_error openapi opts oracle with h | h
  · exact h
  · rw [he] at h; cases h

/-- Claim C9 witness: the guard outcomes at concrete inputs. -/
theorem c9_convert_nil_on_error_witness :
    Convert "" ⟨"T", "", false⟩ ⟨.ok "3.0.0", .ok (some ⟨[]⟩), .ok []⟩ =
      (none, some "openapi input cannot be empty") ∧
    Convert "spec" ⟨"", "", false⟩ ⟨.ok "3.0.0", .ok (some ⟨[]⟩), .ok []⟩ =
      (none, some "title cannot be empty") ∧
    (Convert "spec" ⟨"", "", false⟩ ⟨.ok "3.0.0", .ok (some ⟨[]⟩), .ok []⟩).1 = none := by
  refine ⟨(c9_convert_nil_on_error _ _ _).1 rfl,
          (c9_convert_nil_on_error _ _ _).2.1 (by simp) rfl, ?_⟩
  exact (c9_convert_nil_on_error "spec" ⟨"", "", false⟩ _).2.2 "title cannot be empty"
    (by rfl)

/-- Claim C8 witness: the anchor of a concrete method/path and of a
concrete schema name both equal the lowercased, run-collapsed source
text. -/
theorem c8_anchor_identifiers_witness :
    makeAnchor "POST" "/v3/pets.delete" = anchorSpecText ("POST" ++ " " ++ "/v3/pets.delete") ∧
    makeSchemaAnchor "User" = anchorSpecText "User" ∧
    makeAnchor "POST" "/v3/pets.delete" = "postv3petsdelete" ∧
    makeSchemaAnchor "User" = "user" :=
  ⟨(c8_anchor_identifiers "POST" "/v3/pets.delete" "User").1,
   (c8_anchor_identifiers "POST" "/v3/pets.delete" "User").2,
   by decide, by decide⟩

/-- Claim C2 counterexample: a media type carrying both a singular
example value (a node of unrecognised shape) and a non-empty example
list renders the list's first entry, not nothing — the list's content
does appear in the output and is used although the singular example is
present, refuting the claim as stated. -/
theorem c2_counterexample :
    (MediaType.mk (some (.other "zero"))
        [⟨"first", some (.scalarStr "FROM THE LIST")⟩] none).exampleNode ≠ none ∧
    (MediaType.mk (some (.other "zero"))
        [⟨"first", some (.scalarStr "FROM THE LIST")⟩] none).examples ≠ [] ∧
    getExampleFromMediaType
        (MediaType.mk (some (.other "zero"))
          [⟨"first", some (.scalarStr "FROM THE LIST")⟩] none) =
      marshal (.str "FROM THE LIST") :=
  ⟨by simp, by simp, rfl⟩

/-- Claim C2 (amended): for every example holder whose singular example
value decodes successfully, the rendered example equals the singular
example's content whatever the example list holds — so the list's
content never appears; the list's first entry is consulted only when the
singular example is absent or fails to decode. -/
theorem c2_singular_example_priority (mt : MediaType) (node : YamlNode) (v : JsonValue)
    (h1 : mt.exampleNode = some node) (h2 : decodeNode node = .ok v) :
    getExampleFromMediaType mt = marshal v ∧
    ∀ l : List ExampleEntry,
      getExampleFromMediaType { mt with examples := l } = marshal v := by
  constructor
  · simp [getExampleFromMediaType, h1, h2]
  · intro l
    simp [getExampleFromMediaType, h1, h2]

/-- Claim C2 witness: with both a singular example and a non-empty list
present, the singular example's content is rendered. -/
theorem c2_singular_example_priority_witness :
    getExampleFromMediaType
      (MediaType.mk (some (.scalarStr "SINGULAR"))
        [⟨"e1", some (.scalarStr "LIST")⟩] none) =
      marshal (.str "SINGULAR") :=
  (c2_singular_example_priority
    (MediaType.mk (some (.scalarStr "SINGULAR")) [⟨"e1", some (.scalarStr "LIST")⟩] none)
    (.scalarStr "SINGULAR") (.str "SINGULAR") rfl rfl).1

/-!  ## Error propagation through the rendering pipeline -/

theorem mem_sortStrings {a : String} {l : List String} : a ∈ sortStrings l ↔ a ∈ l :=
  (List.perm_insertionSort _ l).mem_iff

theorem lookupResponse_mem (rs : List (String × Response)) (code : String)
    (h : code ∈ rs.map Prod.fst) : (code, lookupResponse rs code) ∈ rs := by
  induction rs with
  | nil => simp at h
  | cons cr rest ih =>
      obtain ⟨c1, c2⟩ := cr
      by_cases hc : c1 = code
      · subst hc
        have hl : lookupResponse ((c1, c2) :: rest) c1 = c2 := by
          simp [lookupResponse, List.find?_cons]
        rw [hl]
        exact List.mem_cons_self _ _
      · have h' : code ∈ rest.map Prod.fst := by
          simp only [List.map_cons, List.mem_cons] at h
          rcases h with h | h
          · exact absurd h.symm hc
          · exact h
        have hd : (decide (c1 = code)) = false := by simp [hc]
        have hl : lookupResponse ((c1, c2) :: rest) code = lookupResponse rest code := by
          simp only [lookupResponse, List.find?_cons, hd]
        rw [hl]
        exact List.mem_cons_of_mem _ (ih h')

theorem lookupResponse_eq (rs : List (String × Response)) (c : String) (r : Response)
    (hnd : (rs.map Prod.fst).Nodup) (hm : (c, r) ∈ rs) : lookupResponse rs c = r := by
  induction rs with
  | nil => simp at hm
  | cons cr rest ih =>
      obtain ⟨c1, c2⟩ := cr
      have hnd' : c1 ∉ rest.map Prod.fst ∧ (rest.map Prod.fst).Nodup :=
        List.nodup_cons.mp (by simpa using hnd)
      rcases List.mem_cons.mp hm with h | h
      · rw [Prod.mk.injEq] at h
        obtain ⟨rfl, rfl⟩ := h
        simp [lookupResponse, List.find?_cons]
      · have hc1 : c1 ≠ c := by
          intro heq
          subst heq
          exact hnd'.1 (List.mem_map_of_mem Prod.fst h)
        have hd : (decide (c1 = c)) = false := by simp [hc1]
        have hl : lookupResponse ((c1, c2) :: rest) c = lookupResponse rest c := by
          simp only [lookupResponse, List.find?_cons, hd]
        rw [hl]
        exact ih hnd'.2 h

theorem goCodes_ok (op : Operation) (ex : ExamplesMap) :
    ∀ codes : List String,
      (∀ c ∈ codes, respOk ex (c, lookupResponse op.responses c)) →
      ∃ s, renderResponses.goCodes op ex codes = .ok s := by
  intro codes
  induction codes with
  | nil => exact fun _ => ⟨"", rfl⟩
  | cons code rest ih =>
      intro h
      obtain ⟨s, hs⟩ := h code (by simp)
      have hs' : extractResponseExample (lookupResponse op.responses code) ex = .ok s := hs
      obtain ⟨t, ht⟩ := ih (fun c hc => h c (by simp [hc]))
      simp only [renderResponses.goCodes, hs', ht]
      exact ⟨_, rfl⟩

theorem goCodes_err (op : Operation) (ex : ExamplesMap) :
    ∀ codes : List String,
      (∀ c ∈ codes, respOk ex (c, lookupResponse op.responses c) ∨
        respInlineErr ex (c, lookupResponse op.responses c)) →
      (∃ c ∈ codes, respInlineErr ex (c, lookupResponse op.responses c)) →
      renderResponses.goCodes op ex codes = .error inlineMsg := by
  intro codes
  induction codes with
  | nil => rintro _ ⟨c, hc, _⟩; simp at hc
  | cons code rest ih =>
      rintro h ⟨c, hc, herr⟩
      rcases h code (by simp) with ⟨s, hs⟩ | hhead
      · have hs' : extractResponseExample (lookupResponse op.responses code) ex = .ok s := hs
        have hrest : ∃ c ∈ rest, respInlineErr ex (c, lookupResponse op.responses c) := by
          rcases List.mem_cons.mp hc with rfl | hmem
          · rw [respInlineErr, hs] at herr; cases herr
          · exact ⟨c, hmem, herr⟩
        have ht := ih (fun c hc => h c (by simp [hc])) hrest
        simp only [renderResponses.goCodes, hs', ht]
      · have hh : extractResponseExample (lookupResponse op.responses code) ex =
            .error inlineMsg := hhead
        simp only [renderResponses.goCodes, hh]

theorem renderResponses_ok (op : Operation) (ex : ExamplesMap)
    (h : ∀ cr ∈ op.responses, respOk ex cr) :
    ∃ s, renderResponses op ex = .ok s := by
  apply goCodes_ok
  intro c hc
  have : c ∈ op.responses.map Prod.fst := by
    have := mem_sortStrings.mp (by simpa [responsesRenderOrder] using hc)
    exact this
  exact h _ (lookupResponse_mem _ _ this)

theorem renderResponses_err (op : Operation) (ex : ExamplesMap)
    (hwf : opWellFormed ex op)
    (herr : ∃ cr ∈ op.responses, respInlineErr ex cr) :
    renderResponses op ex = .error inlineMsg := by
  apply goCodes_err
  · intro c hc
    have : c ∈ op.responses.map Prod.fst :=
      mem_sortStrings.mp (by simpa [responsesRenderOrder] using hc)
    exact hwf.2 _ (lookupResponse_mem _ _ this)
  · obtain ⟨cr, hcr, he⟩ := herr
    refine ⟨cr.1, ?_, ?_⟩
    · have : cr.1 ∈ op.responses.map Prod.fst := List.mem_map_of_mem Prod.fst hcr
      simpa [responsesRenderOrder] using mem_sortStrings.mpr this
    · have hl : lookupResponse op.responses cr.1 = cr.2 :=
        lookupResponse_eq _ _ _ hwf.1 (by simpa using hcr)
      simpa [respInlineErr, hl] using he

theorem endpointSection_err (e : Endpoint) (ex : ExamplesMap)
    (hwf : opWellFormed ex e.operation)
    (herr : ∃ cr ∈ e.operation.responses, respInlineErr ex cr) :
    renderEndpointSection e ex = .error inlineMsg := by
  have := renderResponses_err e.operation ex hwf herr
  simp [renderEndpointSection, this]

theorem endpointSection_cases (e : Endpoint) (ex : ExamplesMap)
    (hwf : opWellFormed ex e.operation) :
    (∃ s, renderEndpointSection e ex = .ok s) ∨
    renderEndpointSection e ex = .error inlineMsg := by
  by_cases hall : ∀ cr ∈ e.operation.responses, respOk ex cr
  · left
    obtain ⟨s, hs⟩ := renderResponses_ok e.operation ex hall
    refine ⟨endpointHeader e ++ renderParameters e.operation ++ s, ?_⟩
    simp [renderEndpointSection, hs]
  · right
    push_neg at hall
    obtain ⟨cr, hcr, hno⟩ := hall
    have herr : respInlineErr ex cr := (hwf.2 cr hcr).resolve_left hno
    exact endpointSection_err e ex hwf ⟨cr, hcr, herr⟩

theorem endpointList_ok (ex : ExamplesMap) :
    ∀ l : List Endpoint,
      (∀ e ∈ l, ∃ s, renderEndpointSection e ex = .ok s) →
      ∃ s, renderEndpointList ex l = .ok s := by
  intro l
  induction l with
  | nil => exact fun _ => ⟨"", rfl⟩
  | cons e rest ih =>
      intro h
      obtain ⟨s, hs⟩ := h e (by simp)
      obtain ⟨t, ht⟩ := ih (fun x hx => h x (by simp [hx]))
      simp only [renderEndpointList, hs, ht]
      exact ⟨_, rfl⟩

theorem endpointList_err (ex : ExamplesMap) :
    ∀ l : List Endpoint,
      (∀ e ∈ l, (∃ s, renderEndpointSection e ex = .ok s) ∨
        renderEndpointSection e ex = .error inlineMsg) →
      (∃ e ∈ l, renderEndpointSection e ex = .error inlineMsg) →
      renderEndpointList ex l = .error inlineMsg := by
  intro l
  induction l with
  | nil => rintro _ ⟨e, he, _⟩; simp at he
  | cons e rest ih =>
      rintro h ⟨x, hx, herr⟩
      rcases h e (by simp) with ⟨s, hs⟩ | hhead
      · have hrest : ∃ x ∈ rest, renderEndpointSection x ex = .error inlineMsg := by
          rcases List.mem_cons.mp hx with rfl | hmem
          · rw [hs] at herr; cases herr
          · exact ⟨x, hmem, herr⟩
        have ht := ih (fun x hx => h x (by simp [hx])) hrest
        simp only [renderEndpointList, hs, ht]
      · simp only [renderEndpointList, hhead]

theorem lookupGroup_cons (t : String) (es : List Endpoint)
    (rest : List (String × List Endpoint)) (tag : String) :
    lookupGroup ((t, es) :: rest) tag = if t = tag then es else lookupGroup rest tag := by
  by_cases h : t = tag <;> simp [lookupGroup, List.find?_cons, h]

theorem lookupGroup_addToGroup_sub (gs : List (String × List Endpoint)) (t : String)
    (e : Endpoint) (tag : String) (x : Endpoint)
    (hx : x ∈ lookupGroup (addToGroup gs t e) tag) :
    x ∈ lookupGroup gs tag ∨ x = e := by
  induction gs with
  | nil =>
      rw [show addToGroup [] t e = [(t, [e])] from rfl, lookupGroup_cons] at hx
      by_cases h : t = tag
      · rw [if_pos h] at hx
        exact Or.inr (by simpa using hx)
      · rw [if_neg h] at hx
        simp [lookupGroup] at hx
  | cons g rest ih =>
      obtain ⟨t', es⟩ := g
      by_cases ht' : t' = t
      · rw [show addToGroup ((t', es) :: rest) t e =
            if t' = t then (t', es ++ [e]) :: rest else (t', es) :: addToGroup rest t e from rfl,
          if_pos ht', lookupGroup_cons] at hx
        rw [lookupGroup_cons]
        by_cases htag : t' = tag
        · rw [if_pos htag] at hx
          rw [if_pos htag]
          rcases List.mem_append.mp hx with h | h
          · exact Or.inl h
          · exact Or.inr (by simpa using h)
        · rw [if_neg htag] at hx
          rw [if_neg htag]
          exact Or.inl hx
      · rw [show addToGroup ((t', es) :: rest) t e =
            if t' = t then (t', es ++ [e]) :: rest else (t', es) :: addToGroup rest t e from rfl,
          if_neg ht', lookupGroup_cons] at hx
        rw [lookupGroup_cons]
        by_cases htag : t' = tag
        · rw [if_pos htag] at hx
          rw [if_pos htag]
          exact Or.inl hx
        · rw [if_neg htag] at hx
          rw [if_neg htag]
          exact ih hx
theorem lookupGroup_addToGroup_self (gs : List (String × List Endpoint)) (t : String)
    (e : Endpoint) : e ∈ lookupGroup (addToGroup gs t e) t := by
  induction gs with
  | nil => simp [addToGroup, lookupGroup_cons]
  | cons g rest ih =>
      obtain ⟨t', es⟩ := g
      rw [show addToGroup ((t', es) :: rest) t e =
          if t' = t then (t', es ++ [e]) :: rest else (t', es) :: addToGroup rest t e from rfl]
      by_cases ht' : t' = t
      · rw [if_pos ht', lookupGroup_cons, if_pos ht']
        simp
      · rw [if_neg ht', lookupGroup_cons, if_neg ht']
        exact ih

theorem lookupGroup_addToGroup_mono (gs : List (String × List Endpoint)) (t : String)
    (e : Endpoint) (tag : String) (x : Endpoint) (hx : x ∈ lookupGroup gs tag) :
    x ∈ lookupGroup (addToGroup gs t e) tag := by
  induction gs with
  | nil => simp [lookupGroup] at hx
  | cons g rest ih =>
      obtain ⟨t', es⟩ := g
      rw [lookupGroup_cons] at hx
      rw [show addToGroup ((t', es) :: rest) t e =
          if t' = t then (t', es ++ [e]) :: rest else (t', es) :: addToGroup rest t e from rfl]
      by_cases ht' : t' = t
      · rw [if_pos ht', lookupGroup_cons]
        by_cases htag : t' = tag
        · rw [if_pos htag]
          rw [if_pos htag] at hx
          exact List.mem_append.mpr (Or.inl hx)
        · rw [if_neg htag]
          rw [if_neg htag] at hx
          exact hx
      · rw [if_neg ht', lookupGroup_cons]
        by_cases htag : t' = tag
        · rw [if_pos htag]
          rw [if_pos htag] at hx
          exact hx
        · rw [if_neg htag]
          rw [if_neg htag] at hx
          exact ih hx

theorem lookupGroup_tagfold_sub (e : Endpoint) (P : Endpoint → Prop) :
    ∀ (tags : List String) (gs : List (String × List Endpoint)),
      (∀ tag x, x ∈ lookupGroup gs tag → P x) → P e →
      ∀ tag x, x ∈ lookupGroup (tags.foldl (fun g t => addToGroup g t e) gs) tag → P x := by
  intro tags
  induction tags with
  | nil => intro gs hg _ tag x hx; exact hg tag x hx
  | cons t rest ih =>
      intro gs hg he tag x hx
      refine ih (addToGroup gs t e) ?_ he tag x hx
      intro tag' x' hx'
      rcases lookupGroup_addToGroup_sub gs t e tag' x' hx' with h | rfl
      · exact hg tag' x' h
      · exact he

theorem groups_sub_aux (P : Endpoint → Prop) :
    ∀ (l : List Endpoint) (gs : List (String × List Endpoint)),
      (∀ tag x, x ∈ lookupGroup gs tag → P x) → (∀ e ∈ l, P e) →
      ∀ tag x,
        x ∈ lookupGroup (l.foldl (fun gs' e =>
          if e.tags.isEmpty then addToGroup gs' "Default APIs" e
          else e.tags.foldl (fun g t => addToGroup g t e) gs') gs) tag → P x := by
  intro l
  induction l with
  | nil => intro gs hg _ tag x hx; exact hg tag x hx
  | cons e rest ih =>
      intro gs hg hl tag x hx
      simp only [List.foldl_cons] at hx
      have he : P e := hl e (List.mem_cons_self _ _)
      refine ih _ ?_ (fun e' he' => hl e' (List.mem_cons_of_mem _ he')) tag x hx
      by_cases hte : e.tags.isEmpty
      · rw [if_pos hte]
        intro tag' x' hx'
        rcases lookupGroup_addToGroup_sub gs _ e tag' x' hx' with h | h
        · exact hg tag' x' h
        · exact h ▸ he
      · rw [if_neg hte]
        exact lookupGroup_tagfold_sub e P e.tags gs hg he

theorem mem_lookupGroup_groupByTags (es : List Endpoint) (tag : String) (x : Endpoint)
    (hx : x ∈ lookupGroup (groupByTags es) tag) : x ∈ es := by
  refine groups_sub_aux (· ∈ es) es [] ?_ (fun _ h => h) tag x hx
  intro tag' x' hx'
  simp [lookupGroup] at hx'

theorem lookupGroup_tagfold_mono (e' : Endpoint) :
    ∀ (tags : List String) (gs : List (String × List Endpoint)) (tag : String) (x : Endpoint),
      x ∈ lookupGroup gs tag →
      x ∈ lookupGroup (tags.foldl (fun g t => addToGroup g t e') gs) tag := by
  intro tags
  induction tags with
  | nil => intro gs tag x hx; exact hx
  | cons t rest ih =>
      intro gs tag x hx
      exact ih _ tag x (lookupGroup_addToGroup_mono gs t e' tag x hx)

theorem groups_fold_mono :
    ∀ (l : List Endpoint) (gs : List (String × List Endpoint)) (tag : String) (x : Endpoint),
      x ∈ lookupGroup gs tag →
      x ∈ lookupGroup (l.foldl (fun gs' e =>
        if e.tags.isEmpty then addToGroup gs' "Default APIs" e
        else e.tags.foldl (fun g t => addToGroup g t e) gs') gs) tag := by
  intro l
  induction l with
  | nil => intro gs tag x hx; exact hx
  | cons e rest ih =>
      intro gs tag x hx
      simp only [List.foldl_cons]
      refine ih _ tag x ?_
      by_cases hte : e.tags.isEmpty
      · rw [if_pos hte]
        exact lookupGroup_addToGroup_mono gs _ e tag x hx
      · rw [if_neg hte]
        exact lookupGroup_tagfold_mono e e.tags gs tag x hx

theorem endpoint_in_fold_group :
    ∀ (l : List Endpoint) (gs : List (String × List Endpoint)) (e : Endpoint), e ∈ l →
      ∃ tag, e ∈ lookupGroup (l.foldl (fun gs' e' =>
        if e'.tags.isEmpty then addToGroup gs' "Default APIs" e'
        else e'.tags.foldl (fun g t => addToGroup g t e') gs') gs) tag := by
  intro l
  induction l with
  | nil => intro gs e he; simp at he
  | cons e0 rest ih =>
      intro gs e he
      simp only [List.foldl_cons]
      rcases List.mem_cons.mp he with rfl | hmem
      · by_cases hte : e.tags.isEmpty
        · refine ⟨"Default APIs", ?_⟩
          refine groups_fold_mono rest _ _ e ?_
          rw [if_pos hte]
          exact lookupGroup_addToGroup_self gs "Default APIs" e
        · obtain ⟨t0, ts, hts⟩ : ∃ t0 ts, e.tags = t0 :: ts := by
            cases htags : e.tags with
            | nil => rw [htags] at hte; simp at hte
            | cons a b => exact ⟨a, b, rfl⟩
          refine ⟨t0, ?_⟩
          refine groups_fold_mono rest _ _ e ?_
          rw [if_neg hte, hts]
          simp only [List.foldl_cons]
          exact lookupGroup_tagfold_mono e ts _ t0 e
            (lookupGroup_addToGroup_self gs t0 e)
      · exact ih _ e hmem

theorem endpoint_in_some_group (es : List Endpoint) (e : Endpoint) (he : e ∈ es) :
    ∃ tag, e ∈ lookupGroup (groupByTags es) tag :=
  endpoint_in_fold_group es [] e he

theorem mem_keys_of_lookupGroup (gs : List (String × List Endpoint)) (tag : String)
    (x : Endpoint) (hx : x ∈ lookupGroup gs tag) : tag ∈ gs.map Prod.fst := by
  induction gs with
  | nil => simp [lookupGroup] at hx
  | cons g rest ih =>
      obtain ⟨t', es⟩ := g
      by_cases htag : t' = tag
      · simp [htag]
      · rw [lookupGroup_cons, if_neg htag] at hx
        simp [ih hx]

theorem mem_orderedTags (gs : List (String × List Endpoint)) (tag : String)
    (h : tag ∈ gs.map Prod.fst) : tag ∈ orderedTags gs := by
  have h0 : tag ∈ sortStrings (gs.map Prod.fst) := mem_sortStrings.mpr h
  unfold orderedTags
  by_cases hd : "Default APIs" ∈ sortStrings (gs.map Prod.fst)
  · rw [if_pos hd]
    by_cases he : tag = "Default APIs"
    · subst he; simp
    · exact List.mem_append.mpr (Or.inl ((List.mem_erase_of_ne he).mpr h0))
  · rw [if_neg hd]
    exact h0

theorem tagSections_ok (gs : List (String × List Endpoint)) (ex : ExamplesMap) :
    ∀ tags : List String,
      (∀ t ∈ tags, ∃ s, renderEndpointList ex (lookupGroup gs t) = .ok s) →
      ∃ s, renderTagSections gs ex tags = .ok s := by
  intro tags
  induction tags with
  | nil => exact fun _ => ⟨"", rfl⟩
  | cons t rest ih =>
      intro h
      obtain ⟨s, hs⟩ := h t (by simp)
      obtain ⟨u, hu⟩ := ih (fun t' ht' => h t' (by simp [ht']))
      simp only [renderTagSections, hs, hu]
      exact ⟨_, rfl⟩

theorem tagSections_err (gs : List (String × List Endpoint)) (ex : ExamplesMap) :
    ∀ tags : List String,
      (∀ t ∈ tags, (∃ s, renderEndpointList ex (lookupGroup gs t) = .ok s) ∨
        renderEndpointList ex (lookupGroup gs t) = .error inlineMsg) →
      (∃ t ∈ tags, renderEndpointList ex (lookupGroup gs t) = .error inlineMsg) →
      renderTagSections gs ex tags = .error inlineMsg := by
  intro tags
  induction tags with
  | nil => rintro _ ⟨t, ht, _⟩; simp at ht
  | cons t rest ih =>
      rintro h ⟨t', ht', herr⟩
      rcases h t (by simp) with ⟨s, hs⟩ | hhead
      · have hrest : ∃ t' ∈ rest, renderEndpointList ex (lookupGroup gs t') = .error inlineMsg := by
          rcases List.mem_cons.mp ht' with rfl | hmem
          · rw [hs] at herr; cases herr
          · exact ⟨t', hmem, herr⟩
        have hu := ih (fun t' ht'' => h t' (by simp [ht''])) hrest
        simp only [renderTagSections, hs, hu]
      · simp only [renderTagSections, hhead]

theorem generateMarkdown_err (opts : ConvertOptions) (endpoints : List Endpoint)
    (ex : ExamplesMap)
    (hwf : ∀ e ∈ endpoints, opWellFormed ex e.operation)
    (herr : ∃ e ∈ endpoints, ∃ cr ∈ e.operation.responses, respInlineErr ex cr) :
    generateMarkdown opts endpoints (groupByTags endpoints) ex = .error inlineMsg := by
  obtain ⟨e0, he0, hre⟩ := herr
  have hnonempty : endpoints.isEmpty = false := by
    cases endpoints with
    | nil => simp at he0
    | cons _ _ => rfl
  have hbucket : ∀ t, (∃ s, renderEndpointList ex (lookupGroup (groupByTags endpoints) t) = .ok s) ∨
      renderEndpointList ex (lookupGroup (groupByTags endpoints) t) = .error inlineMsg := by
    intro t
    by_cases hall : ∀ x ∈ lookupGroup (groupByTags endpoints) t,
        ∃ s, renderEndpointSection x ex = .ok s
    · exact Or.inl (endpointList_ok ex _ hall)
    · push_neg at hall
      obtain ⟨x, hx, hno⟩ := hall
      have hx' : x ∈ endpoints := mem_lookupGroup_groupByTags endpoints t x hx
      have hcase := endpointSection_cases x ex (hwf x hx')
      have hxerr : renderEndpointSection x ex = .error inlineMsg := by
        rcases hcase with ⟨s, hs⟩ | h
        · exact absurd hs (hno s)
        · exact h
      refine Or.inr (endpointList_err ex _ ?_ ⟨x, hx, hxerr⟩)
      intro y hy
      exact endpointSection_cases y ex (hwf y (mem_lookupGroup_groupByTags endpoints t y hy))
  obtain ⟨tag0, htag0⟩ := endpoint_in_some_group endpoints e0 he0
  have htag0' : tag0 ∈ orderedTags (groupByTags endpoints) :=
    mem_orderedTags _ _ (mem_keys_of_lookupGroup _ _ _ htag0)
  have hsec0 : renderEndpointSection e0 ex = .error inlineMsg :=
    endpointSection_err e0 ex (hwf e0 he0) hre
  have hlist0 : renderEndpointList ex (lookupGroup (groupByTags endpoints) tag0) = .error inlineMsg := by
    refine endpointList_err ex _ ?_ ⟨e0, htag0, hsec0⟩
    intro y hy
    exact endpointSection_cases y ex (hwf y (mem_lookupGroup_groupByTags endpoints tag0 y hy))
  have hsections := tagSections_err (groupByTags endpoints) ex (orderedTags (groupByTags endpoints))
    (fun t _ => hbucket t) ⟨tag0, htag0', hlist0⟩
  simp only [generateMarkdown, hnonempty, Bool.false_eq_true, if_false, hsections]

theorem generateMarkdown_ok (opts : ConvertOptions) (endpoints : List Endpoint)
    (ex : ExamplesMap)
    (hok : ∀ e ∈ endpoints, ∀ cr ∈ e.operation.responses, respOk ex cr) :
    ∃ s, generateMarkdown opts endpoints (groupByTags endpoints) ex = .ok s := by
  by_cases hempty : endpoints.isEmpty
  · refine ⟨"# " ++ opts.title ++ "\n\n" ++
      (if opts.description ≠ "" then opts.description ++ "\n\n" else ""), ?_⟩
    simp only [generateMarkdown, hempty, if_true]
  · have hsections : ∃ s,
        renderTagSections (groupByTags endpoints) ex (orderedTags (groupByTags endpoints)) = .ok s := by
      refine tagSections_ok _ _ _ ?_
      intro t _
      refine endpointList_ok ex _ ?_
      intro y hy
      have hy' : y ∈ endpoints := mem_lookupGroup_groupByTags endpoints t y hy
      obtain ⟨s, hs⟩ := renderResponses_ok y.operation ex (hok y hy')
      refine ⟨endpointHeader y ++ renderParameters y.operation ++ s, ?_⟩
      simp [renderEndpointSection, hs]
    obtain ⟨s, hs⟩ := hsections
    rw [Bool.not_eq_true] at hempty
    simp only [generateMarkdown, hempty, Bool.false_eq_true, if_false, hs]
    exact ⟨_, rfl⟩

theorem extractResponse_go_inline (examples : ExamplesMap) (mt : MediaType)
    (post : List (String × Option MediaType))
    (hex : getExampleFromMediaType mt = "")
    (hschema : mt.schema = some .inlineSchema) :
    ∀ pre : List (String × Option MediaType), (∀ x ∈ pre, x.1 ≠ "application/json") →
      extractResponseExample.go examples (pre ++ ("application/json", some mt) :: post) =
        .error inlineMsg := by
  intro pre
  induction pre with
  | nil =>
      intro _
      simp only [List.nil_append, extractResponseExample.go, hex, hschema]
      simp [inlineMsg, getExampleFromSchema]
  | cons x pre' ih =>
      intro hpre
      obtain ⟨x1, x2⟩ := x
      have hx1 : x1 ≠ "application/json" := hpre (x1, x2) (by simp)
      simp only [List.cons_append, extractResponseExample.go, if_pos hx1]
      exact ih (fun y hy => hpre y (by simp [hy]))

/-- Claim C3: a response whose application/json body schema is inline
(not a reference) and which has no explicit example on the media type
makes the whole conversion fail with an error containing "inline schemas
not supported"; the fallback generator is keyed strictly by schema name
and is never consulted for an unnamed schema (the outcome for an inline
schema is the same fixed error for every generator content). -/
theorem c3_inline_schema_hard_error
    (resp : Response) (mt : MediaType) (examples : ExamplesMap)
    (pre post : List (String × Option MediaType))
    (hc : resp.content = pre ++ ("application/json", some mt) :: post)
    (hpre : ∀ x ∈ pre, x.1 ≠ "application/json")
    (hex : getExampleFromMediaType mt = "")
    (hschema : mt.schema = some .inlineSchema) :
    extractResponseExample resp examples = .error inlineMsg ∧
    (∀ ex₁ ex₂ : ExamplesMap,
      getExampleFromSchema (some .inlineSchema) ex₁ = .error inlineMsg ∧
      getExampleFromSchema (some .inlineSchema) ex₁ =
        getExampleFromSchema (some .inlineSchema) ex₂) ∧
    (∀ (r nm : String) (ex₁ ex₂ : ExamplesMap), extractSchemaName r = .ok nm →
      lookupExample ex₁ nm = lookupExample ex₂ nm →
      getExampleFromSchema (some (.reference r)) ex₁ =
        getExampleFromSchema (some (.reference r)) ex₂) ∧
    (∀ (openapi : String) (opts : ConvertOptions) (oracle : ParseOracle)
        (version : String) (model : DocModel),
      openapi ≠ "" → opts.title ≠ "" →
      oracle.newDocument = .ok version → version ≠ "" →
      strHasLeadIn version "3." = true →
      oracle.buildV3Model = .ok (some model) →
      (∀ e ∈ extractEndpoints model,
        opWellFormed (generateComponentExamples oracle) e.operation) →
      (∃ e ∈ extractEndpoints model, ∃ cr ∈ e.operation.responses,
        respInlineErr (generateComponentExamples oracle) cr) →
      Convert openapi opts oracle = (none, some inlineMsg)) := by
  refine ⟨?_, ?_, ?_, ?_⟩
  · show extractResponseExample.go examples resp.content = .error inlineMsg
    rw [hc]
    exact extractResponse_go_inline examples mt post hex hschema pre hpre
  · intro ex₁ ex₂
    exact ⟨rfl, rfl⟩
  · intro r nm ex₁ ex₂ hnm hlk
    simp only [getExampleFromSchema, hnm, hlk]
  · intro openapi opts oracle version model h1 h2 h3 h4 h5 h6 hwf herr
    have hg := generateMarkdown_err opts (extractEndpoints model)
      (generateComponentExamples oracle) hwf herr
    simp [Convert, h1, h2, h3, h4, h5, h6, hg]

/-- Claim C3 witness: a concrete single-endpoint document whose only
response has an inline JSON body schema and no explicit example; the
conversion returns a nil result and the inline-schema error. -/
theorem c3_inline_schema_hard_error_witness :
    extractResponseExample ⟨"d", [("application/json", some ⟨none, [], some .inlineSchema⟩)]⟩ []
      = .error inlineMsg ∧
    Convert "x" ⟨"T", "", false⟩
      ⟨.ok "3.0.0",
       .ok (some ⟨[("/a", [("get",
          ⟨"s", "", [], [],
           [("200", ⟨"d", [("application/json", some ⟨none, [], some .inlineSchema⟩)]⟩)]⟩)])]⟩),
       .ok []⟩ = (none, some inlineMsg) := by
  have h := c3_inline_schema_hard_error
    ⟨"d", [("application/json", some ⟨none, [], some .inlineSchema⟩)]⟩
    ⟨none, [], some .inlineSchema⟩ [] [] [] rfl (by intro x hx; simp at hx) rfl rfl
  refine ⟨h.1, ?_⟩
  refine h.2.2.2 "x" ⟨"T", "", false⟩ _ "3.0.0" _ (by simp) (by simp) rfl (by simp) (by rfl) rfl
    ?_ ?_
  · intro e he
    rcases List.mem_cons.mp he with rfl | he'
    · exact ⟨by simp, by
        intro cr hcr
        rcases List.mem_cons.mp hcr with rfl | hcr'
        · exact Or.inr (by rfl)
        · simp at hcr'⟩
    · simp at he'
  · refine ⟨_, List.mem_cons_self _ _, ⟨("200",
      ⟨"d", [("application/json", some ⟨none, [], some .inlineSchema⟩)]⟩), ?_, by rfl⟩⟩
    exact List.mem_cons_self _ _

/-- Claim C7: decoding a structured example value rejects an
unrecognised node shape with a descriptive error naming the kind, never
silently coercing it; such a malformed example aborts only that single
example resolution — the call site degrades to no example — and a
conversion whose every response extraction succeeds (the malformed
example merely degrading) returns a result and no error. -/
theorem c7_malformed_example_degrades (kind : String) :
    decodeNode (.other kind) =
      .error ("cannot decode yaml node of unrecognized kind: " ++ kind) ∧
    (∀ (mt : MediaType) (node : YamlNode) (err : String),
      mt.exampleNode = some node → decodeNode node = .error err → mt.examples = [] →
      getExampleFromMediaType mt = "") ∧
    (∀ (resp : Response) (mt : MediaType) (node : YamlNode) (err : String)
        (ex : ExamplesMap),
      resp.content = [("application/json", some mt)] →
      mt.exampleNode = some node → decodeNode node = .error err →
      mt.examples = [] → mt.schema = none →
      extractResponseExample resp ex = .ok "") ∧
    (∀ (openapi : String) (opts : ConvertOptions) (oracle : ParseOracle)
        (version : String) (model : DocModel),
      openapi ≠ "" → opts.title ≠ "" →
      oracle.newDocument = .ok version → version ≠ "" →
      strHasLeadIn version "3." = true →
      oracle.buildV3Model = .ok (some model) →
      (∀ e ∈ extractEndpoints model, ∀ cr ∈ e.operation.responses,
        respOk (generateComponentExamples oracle) cr) →
      ∃ res, Convert openapi opts oracle = (some res, none)) := by
  refine ⟨rfl, ?_, ?_, ?_⟩
  · intro mt node err h1 h2 h3
    simp [getExampleFromMediaType, h1, h2, h3]
  · intro resp mt node err ex hc h1 h2 h3 h4
    have hmt : getExampleFromMediaType mt = "" := by
      simp [getExampleFromMediaType, h1, h2, h3]
    show extractResponseExample.go ex resp.content = .ok ""
    rw [hc]
    simp only [extractResponseExample.go, hmt, h4]
    simp
  · intro openapi opts oracle version model h1 h2 h3 h4 h5 h6 hok
    obtain ⟨s, hs⟩ := generateMarkdown_ok opts (extractEndpoints model)
      (generateComponentExamples oracle) hok
    refine ⟨⟨s, (extractEndpoints model).length,
      (groupByTags (extractEndpoints model)).length⟩, ?_⟩
    simp [Convert, h1, h2, h3, h4, h5, h6, hs]

/-- Claim C7 witness: a malformed singular example (an alias-kind node)
on the only response of a concrete document degrades to no example and
the conversion succeeds. -/
theorem c7_malformed_example_degrades_witness :
    decodeNode (.other "alias") =
      .error ("cannot decode yaml node of unrecognized kind: " ++ "alias") ∧
    extractResponseExample
      ⟨"d", [("application/json", some ⟨some (.other "alias"), [], none⟩)]⟩ [] = .ok "" ∧
    ∃ res, Convert "x" ⟨"T", "", false⟩
      ⟨.ok "3.0.0",
       .ok (some ⟨[("/a", [("get",
          ⟨"s", "", [], [],
           [("200", ⟨"d", [("application/json", some ⟨some (.other "alias"), [], none⟩)]⟩)]⟩)])]⟩),
       .ok []⟩ = (some res, none) := by
  have h := c7_malformed_example_degrades "alias"
  refine ⟨h.1, ?_, ?_⟩
  · exact h.2.2.1 _ ⟨some (.other "alias"), [], none⟩ (.other "alias")
      ("cannot decode yaml node of unrecognized kind: " ++ "alias") [] rfl rfl rfl rfl rfl
  · refine h.2.2.2 "x" ⟨"T", "", false⟩ _ "3.0.0" _ (by simp) (by simp) rfl (by simp)
      (by rfl) rfl ?_
    intro e he
    rcases List.mem_cons.mp he with rfl | he'
    · intro cr hcr
      rcases List.mem_cons.mp hcr with rfl | hcr'
      · exact ⟨"", by rfl⟩
      · simp at hcr'
    · simp at he'

/-!  ## Status-code ordering (sort.Strings) -/

theorem charToNat_inj (a b : Char) (h : a.toNat = b.toNat) : a = b := by
  apply Char.ext
  apply UInt32.ext
  simpa [Char.toNat, UInt32.toNat] using h

theorem charListLe_total : ∀ a b : List Char,
    charListLe a b = true ∨ charListLe b a = true := by
  intro a
  induction a with
  | nil => intro b; exact Or.inl rfl
  | cons x xs ih =>
      intro b
      cases b with
      | nil => exact Or.inr rfl
      | cons y ys =>
          rcases Nat.lt_trichotomy x.toNat y.toNat with h | h | h
          · exact Or.inl (by simp [charListLe, h])
          · rcases ih ys with h' | h'
            · exact Or.inl (by simp [charListLe, h, h'])
            · exact Or.inr (by simp [charListLe, h, h'])
          · exact Or.inr (by simp [charListLe, h])

theorem charListLe_cons_iff (x y : Char) (xs ys : List Char) :
    charListLe (x :: xs) (y :: ys) = true ↔
      x.toNat < y.toNat ∨ (x.toNat = y.toNat ∧ charListLe xs ys = true) := by
  simp only [charListLe]
  by_cases h1 : x.toNat < y.toNat
  · simp only [if_pos h1]
    exact ⟨fun _ => Or.inl h1, fun _ => by trivial⟩
  · by_cases h2 : y.toNat < x.toNat
    · simp only [if_neg h1, if_pos h2]
      constructor
      · intro h; cases h
      · rintro (h | ⟨h, _⟩) <;> omega
    · simp only [if_neg h1, if_neg h2]
      have hxy : x.toNat = y.toNat := by omega
      constructor
      · intro h; exact Or.inr ⟨hxy, h⟩
      · rintro (h | ⟨_, h⟩)
        · omega
        · exact h

theorem charListLe_trans : ∀ a b c : List Char,
    charListLe a b = true → charListLe b c = true → charListLe a c = true := by
  intro a
  induction a with
  | nil => intro b c _ _; rfl
  | cons x xs ih =>
      intro b c hab hbc
      cases b with
      | nil => simp [charListLe] at hab
      | cons y ys =>
          cases c with
          | nil => simp [charListLe] at hbc
          | cons z zs =>
              rw [charListLe_cons_iff] at hab hbc ⊢
              rcases hab with h1 | ⟨h1, h1'⟩
              · rcases hbc with h2 | ⟨h2, _⟩
                · exact Or.inl (by omega)
                · exact Or.inl (by omega)
              · rcases hbc with h2 | ⟨h2, h2'⟩
                · exact Or.inl (by omega)
                · exact Or.inr ⟨by omega, ih ys zs h1' h2'⟩

theorem charListLe_antisymm : ∀ a b : List Char,
    charListLe a b = true → charListLe b a = true → a = b := by
  intro a
  induction a with
  | nil =>
      intro b _ hba
      cases b with
      | nil => rfl
      | cons y ys => simp [charListLe] at hba
  | cons x xs ih =>
      intro b hab hba
      cases b with
      | nil => simp [charListLe] at hab
      | cons y ys =>
          rw [charListLe_cons_iff] at hab hba
          rcases hab with h1 | ⟨h1, h1'⟩
          · rcases hba with h2 | ⟨h2, _⟩ <;> omega
          · rcases hba with h2 | ⟨h2, h2'⟩
            · omega
            · rw [charToNat_inj x y h1, ih ys h1' h2']

theorem strLeB_total (a b : String) : strLeB a b = true ∨ strLeB b a = true :=
  charListLe_total a.data b.data

theorem strLeB_trans (a b c : String) (h1 : strLeB a b = true) (h2 : strLeB b c = true) :
    strLeB a c = true :=
  charListLe_trans a.data b.data c.data h1 h2

theorem strLeB_antisymm (a b : String) (h1 : strLeB a b = true) (h2 : strLeB b a = true) :
    a = b := by
  have := charListLe_antisymm a.data b.data h1 h2
  cases a; cases b; exact congrArg String.mk this

/-- Claim C10: per-status-code response sections are rendered in
ascending lexicographic order of the status-code strings — the renderer
iterates `responsesRenderOrder`, which is sorted, is a permutation of
the declared codes, and is identical for any two declaration orders of
the same codes. -/
theorem c10_response_code_order (rs : List (String × Response)) :
    (∀ (op : Operation) (ex : ExamplesMap), op.responses = rs →
      renderResponses op ex = renderResponses.goCodes op ex (responsesRenderOrder rs)) ∧
    List.Sorted (fun a b : String => strLeB a b = true) (responsesRenderOrder rs) ∧
    (responsesRenderOrder rs).Perm (rs.map Prod.fst) ∧
    (∀ rs' : List (String × Response), (rs.map Prod.fst).Perm (rs'.map Prod.fst) →
      responsesRenderOrder rs = responsesRenderOrder rs') := by
  haveI hTot : IsTotal String (fun a b : String => strLeB a b = true) := ⟨strLeB_total⟩
  haveI hTrans : IsTrans String (fun a b : String => strLeB a b = true) :=
    ⟨fun a b c => strLeB_trans a b c⟩
  haveI hAnti : IsAntisymm String (fun a b : String => strLeB a b = true) :=
    ⟨fun a b => strLeB_antisymm a b⟩
  refine ⟨?_, ?_, ?_, ?_⟩
  · intro op ex h
    rw [← h]
    rfl
  · exact List.sorted_insertionSort _ _
  · exact List.perm_insertionSort _ _
  · intro rs' hperm
    have p1 : (responsesRenderOrder rs).Perm (rs.map Prod.fst) :=
      List.perm_insertionSort _ _
    have p2 : (responsesRenderOrder rs').Perm (rs'.map Prod.fst) :=
      List.perm_insertionSort _ _
    exact List.eq_of_perm_of_sorted ((p1.trans hperm).trans p2.symm)
      (List.sorted_insertionSort _ _) (List.sorted_insertionSort _ _)

/-!  ## Extractor infrastructure -/

theorem extractProps_zero (g : Graph) (ceiling : Nat) (st : VisitState)
    (props : List SchemaProperty) :
    extractProps g ceiling 0 st props = (props.map descriptorOf, []) := rfl

theorem extractProps_nil (g : Graph) (ceiling fuel : Nat) (st : VisitState) :
    extractProps g ceiling fuel st [] = ([], []) := by
  cases fuel <;> rfl

theorem extractProps_cons (g : Graph) (ceiling fuel : Nat) (st : VisitState)
    (p : SchemaProperty) (rest : List SchemaProperty) :
    extractProps g ceiling (fuel + 1) st (p :: rest) =
      (descriptorOf p :: (extractProps g ceiling (fuel + 1) st rest).1,
       (expandRef g ceiling fuel st p.kind).toList ++
         (extractProps g ceiling (fuel + 1) st rest).2) := rfl

theorem visitCount_nil (n : String) : visitCount [] n = 0 := rfl

theorem visitCount_bump_self : ∀ (st : VisitState) (n : String),
    visitCount (bumpVisit st n) n = visitCount st n + 1 := by
  intro st
  induction st with
  | nil => intro n; simp [bumpVisit, visitCount, List.find?_cons]
  | cons entry rest ih =>
      intro n
      obtain ⟨m, c⟩ := entry
      by_cases hm : m = n
      · subst hm
        simp [bumpVisit, visitCount, List.find?_cons]
      · have hd : (decide (m = n)) = false := by simp [hm]
        simp only [bumpVisit, if_neg hm, visitCount, List.find?_cons, hd]
        exact ih n

theorem visitCount_bump_ne : ∀ (st : VisitState) (n m : String), m ≠ n →
    visitCount (bumpVisit st n) m = visitCount st m := by
  intro st
  induction st with
  | nil =>
      intro n m hne
      have hd : (decide (n = m)) = false := by simp [Ne.symm hne]
      simp [bumpVisit, visitCount, List.find?_cons, hd]
  | cons entry rest ih =>
      intro n m hne
      obtain ⟨m0, c⟩ := entry
      by_cases hm : m0 = n
      · subst hm
        have hd : (decide (m0 = m)) = false := by simp [Ne.symm hne]
        simp [bumpVisit, visitCount, List.find?_cons, hd]
      · by_cases hm0 : m0 = m
        · subst hm0
          simp [bumpVisit, hm, visitCount, List.find?_cons]
        · have hd : (decide (m0 = m)) = false := by simp [hm0]
          simp only [bumpVisit, if_neg hm, visitCount, List.find?_cons, hd]
          exact ih n m hne

theorem visitTotal_bump : ∀ (st : VisitState) (n : String),
    visitTotal (bumpVisit st n) = visitTotal st + 1 := by
  intro st
  induction st with
  | nil => intro n; rfl
  | cons entry rest ih =>
      intro n
      obtain ⟨m, c⟩ := entry
      by_cases hm : m = n
      · subst hm
        simp [bumpVisit, visitTotal]
        omega
      · simp only [bumpVisit, if_neg hm, visitTotal, List.map_cons, List.sum_cons]
        have := ih n
        simp [visitTotal] at this
        omega

theorem defsDeep_append : ∀ l₁ l₂ : List SchemaDefinition,
    defsDeep (l₁ ++ l₂) = defsDeep l₁ ++ defsDeep l₂ := by
  intro l₁
  induction l₁ with
  | nil => intro l₂; rfl
  | cons d rest ih =>
      intro l₂
      show defsDeepOne d ++ defsDeep (rest ++ l₂) = (defsDeepOne d ++ defsDeep rest) ++ defsDeep l₂
      rw [ih, List.append_assoc]

theorem defsNamesDeep_append (l₁ l₂ : List SchemaDefinition) :
    defsNamesDeep (l₁ ++ l₂) = defsNamesDeep l₁ ++ defsNamesDeep l₂ := by
  unfold defsNamesDeep
  rw [defsDeep_append, List.map_append]

theorem defsNamesDeep_nil : defsNamesDeep [] = [] := rfl

theorem defsNamesDeep_one (n : String) (fs : List FieldDescriptor)
    (ds : List SchemaDefinition) :
    defsNamesDeep [.mk n fs ds] = n :: defsNamesDeep ds := by
  unfold defsNamesDeep
  show ((SchemaDefinition.mk n fs ds :: defsDeep ds) ++ defsDeep []).map SchemaDefinition.name = _
  simp [defsDeep, SchemaDefinition.name]

theorem mem_defsDeep_name (d : SchemaDefinition) (ds : List SchemaDefinition)
    (h : d ∈ defsDeep ds) : SchemaDefinition.name d ∈ defsNamesDeep ds :=
  List.mem_map_of_mem _ h

theorem defsDeep_one_eq (n : String) (fs : List FieldDescriptor)
    (ds : List SchemaDefinition) :
    defsDeep [SchemaDefinition.mk n fs ds] = SchemaDefinition.mk n fs ds :: defsDeep ds := by
  show defsDeepOne (.mk n fs ds) ++ defsDeep [] = _
  simp [defsDeepOne, defsDeep]

theorem extract_no_revisit (g : Graph) (ceiling : Nat) (s : String) :
    ∀ (fuel : Nat) (props : List SchemaProperty) (st : VisitState),
      2 ≤ visitCount st s →
      s ∉ defsNamesDeep (extractProps g ceiling fuel st props).2 := by
  intro fuel
  induction fuel with
  | zero =>
      intro props st _
      simp [extractProps_zero, defsNamesDeep, defsDeep]
  | succ fuel ih =>
      intro props st h
      induction props with
      | nil => simp [extractProps_nil, defsNamesDeep, defsDeep]
      | cons p rest ihp =>
          rw [extractProps_cons]
          rw [defsNamesDeep_append]
          intro hmem
          rcases List.mem_append.mp hmem with hm | hm
          · rcases hrt : refTarget p.kind with _ | n
            · simp only [expandRef, hrt, Option.toList_none] at hm
              simp [defsNamesDeep, defsDeep] at hm
            · simp only [expandRef, hrt] at hm
              by_cases h1 : visitCount st n > 1
              · rw [if_pos h1] at hm
                simp [defsNamesDeep, defsDeep] at hm
              · rw [if_neg h1] at hm
                by_cases h2 : ceiling ≤ visitTotal st
                · rw [if_pos h2] at hm
                  simp [defsNamesDeep, defsDeep] at hm
                · rw [if_neg h2] at hm
                  cases hlk : lookupSchema g n with
                  | none =>
                      rw [hlk] at hm
                      simp [defsNamesDeep, defsDeep] at hm
                  | some node =>
                      rw [hlk] at hm
                      have hns : n ≠ s := by
                        intro he
                        subst he
                        omega
                      simp only [Option.toList_some] at hm
                      rw [defsNamesDeep_one] at hm
                      rcases List.mem_cons.mp hm with he | hdeep
                      · exact hns he.symm
                      · have hcnt : 2 ≤ visitCount (bumpVisit st n) s := by
                          rw [visitCount_bump_ne st n s (Ne.symm hns)]
                          exact h
                        exact ih _ _ hcnt hdeep
          · exact ihp hm

theorem extract_visited_no_nested_self (g : Graph) (ceiling : Nat) (s : String) :
    ∀ (fuel : Nat) (props : List SchemaProperty) (st : VisitState),
      1 ≤ visitCount st s →
      ∀ d ∈ defsDeep (extractProps g ceiling fuel st props).2,
        SchemaDefinition.name d = s → s ∉ defsNamesDeep (SchemaDefinition.nested d) := by
  intro fuel
  induction fuel with
  | zero =>
      intro props st _ d hd
      rw [extractProps_zero] at hd
      simp [defsDeep] at hd
  | succ fuel ih =>
      intro props st h
      induction props with
      | nil =>
          intro d hd
          rw [extractProps_nil] at hd
          simp [defsDeep] at hd
      | cons p rest ihp =>
          intro d hd hname
          rw [extractProps_cons] at hd
          rw [defsDeep_append] at hd
          rcases List.mem_append.mp hd with hm | hm
          · rcases hrt : refTarget p.kind with _ | n
            · simp only [expandRef, hrt, Option.toList_none] at hm
              simp [defsDeep] at hm
            · simp only [expandRef, hrt] at hm
              by_cases h1 : visitCount st n > 1
              · rw [if_pos h1] at hm
                simp [defsDeep] at hm
              · rw [if_neg h1] at hm
                by_cases h2 : ceiling ≤ visitTotal st
                · rw [if_pos h2] at hm
                  simp [defsDeep] at hm
                · rw [if_neg h2] at hm
                  cases hlk : lookupSchema g n with
                  | none =>
                      rw [hlk] at hm
                      simp [defsDeep] at hm
                  | some node =>
                      rw [hlk] at hm
                      simp only [Option.toList_some] at hm
                      rw [defsDeep_one_eq] at hm
                      by_cases hns : n = s
                      · subst hns
                        have hcnt : 2 ≤ visitCount (bumpVisit st n) n := by
                          rw [visitCount_bump_self]
                          omega
                        have hnone := extract_no_revisit g ceiling n fuel
                          node.properties (bumpVisit st n) hcnt
                        rcases List.mem_cons.mp hm with rfl | hdeep
                        · exact hnone
                        · have hmm := mem_defsDeep_name d _ hdeep
                          rw [hname] at hmm
                          exact absurd hmm hnone
                      · have hcnt : 1 ≤ visitCount (bumpVisit st n) s := by
                          rw [visitCount_bump_ne st n s (fun he => hns he.symm)]
                          exact h
                        rcases List.mem_cons.mp hm with rfl | hdeep
                        · exact absurd hname hns
                        · exact ih _ _ hcnt d hdeep hname
          · exact ihp d hm hname

theorem extract_expands_selfref (g : Graph) (ceiling : Nat) (s : String)
    (node : SchemaNode) (hlk : lookupSchema g s = some node) :
    ∀ (fuel : Nat) (props : List SchemaProperty) (st : VisitState),
      (∃ p ∈ props, refTarget p.kind = some s) →
      visitCount st s ≤ 1 → visitTotal st < ceiling →
      ∃ d ∈ (extractProps g ceiling (fuel + 1) st props).2,
        SchemaDefinition.name d = s := by
  intro fuel props
  induction props with
  | nil =>
      rintro st ⟨p, hp, _⟩ _ _
      simp at hp
  | cons p rest ihp =>
      rintro st ⟨q, hq, hqs⟩ hcnt hdepth
      rw [extractProps_cons]
      rcases List.mem_cons.mp hq with rfl | hq'
      · have hexp : expandRef g ceiling fuel st q.kind =
            some (.mk s
              (extractProps g ceiling fuel (bumpVisit st s) node.properties).1
              (extractProps g ceiling fuel (bumpVisit st s) node.properties).2) := by
          simp only [expandRef, hqs, hlk]
          rw [if_neg (by omega : ¬ visitCount st s > 1),
            if_neg (by omega : ¬ ceiling ≤ visitTotal st)]
        rw [hexp]
        exact ⟨SchemaDefinition.mk s
            (extractProps g ceiling fuel (bumpVisit st s) node.properties).1
            (extractProps g ceiling fuel (bumpVisit st s) node.properties).2,
          by simp, rfl⟩
      · obtain ⟨d, hd, hdn⟩ := ihp st ⟨q, hq', hqs⟩ hcnt hdepth
        exact ⟨d, by simp [hd], hdn⟩

/-- Claim C4: for every self-referencing named schema — one of whose own
properties references itself directly or through an array's items — a
top-level extraction expands it exactly one nested level: some directly
nested definition section carries the schema's name, and every
definition section carrying that name, at any depth, contains no further
definition section of that name (the visit count, already greater than 1
before incrementing, blocks re-expansion). -/
theorem c4_selfref_expands_one_level (g : Graph) (ceiling : Nat) (s : String)
    (node : SchemaNode) (hlk : lookupSchema g s = some node)
    (hself : ∃ p ∈ node.properties, refTarget p.kind = some s)
    (hceil : 2 ≤ ceiling) :
    (∃ d ∈ (extractTop g ceiling s).2, SchemaDefinition.name d = s) ∧
    (∀ d ∈ defsDeep (extractTop g ceiling s).2, SchemaDefinition.name d = s →
      s ∉ defsNamesDeep (SchemaDefinition.nested d)) := by
  have hc1 : visitCount (bumpVisit [] s) s = 1 := by
    rw [visitCount_bump_self]
    rfl
  have ht1 : visitTotal (bumpVisit [] s) = 1 := by
    rw [visitTotal_bump]
    rfl
  unfold extractTop
  rw [hlk]
  constructor
  · obtain ⟨k, hk⟩ : ∃ k, ceiling = k + 1 := ⟨ceiling - 1, by omega⟩
    rw [hk]
    exact extract_expands_selfref g (k + 1) s node hlk k node.properties
      (bumpVisit [] s) hself (by omega) (by omega)
  · intro d hd hname
    exact extract_visited_no_nested_self g ceiling s ceiling node.properties
      (bumpVisit [] s) (by omega) d hd hname

/-- Claim C4 witness: the tree-node schema whose array items reference
itself expands to exactly the one nested TreeNode section, and that
section contains no further TreeNode section. -/
theorem c4_selfref_expands_one_level_witness :
    (∃ d ∈ (extractTop
        [("TreeNode", ⟨[⟨"value", .scalar "string", false, "Node value", []⟩,
          ⟨"children", .arrayRefSchema "TreeNode", false, "Child nodes", []⟩]⟩)]
        10 "TreeNode").2, SchemaDefinition.name d = "TreeNode") ∧
    (∀ d ∈ defsDeep (extractTop
        [("TreeNode", ⟨[⟨"value", .scalar "string", false, "Node value", []⟩,
          ⟨"children", .arrayRefSchema "TreeNode", false, "Child nodes", []⟩]⟩)]
        10 "TreeNode").2, SchemaDefinition.name d = "TreeNode" →
      "TreeNode" ∉ defsNamesDeep (SchemaDefinition.nested d)) :=
  c4_selfref_expands_one_level
    [("TreeNode", ⟨[⟨"value", .scalar "string", false, "Node value", []⟩,
      ⟨"children", .arrayRefSchema "TreeNode", false, "Child nodes", []⟩]⟩)]
    10 "TreeNode"
    ⟨[⟨"value", .scalar "string", false, "Node value", []⟩,
      ⟨"children", .arrayRefSchema "TreeNode", false, "Child nodes", []⟩]⟩
    rfl
    ⟨⟨"children", .arrayRefSchema "TreeNode", false, "Child nodes", []⟩,
      List.mem_cons_of_mem _ (List.mem_cons_self _ _), rfl⟩
    (by omega)

/-!  ## Reference chains and the depth ceiling -/

theorem lookupSchema_cons (m : String) (nd : SchemaNode) (g : Graph) (n : String) :
    lookupSchema ((m, nd) :: g) n = if m = n then some nd else lookupSchema g n := by
  by_cases h : m = n <;> simp [lookupSchema, List.find?_cons, h]

theorem chainIn_extend (m : String) (nd : SchemaNode) (g : Graph) :
    ∀ l : List String, (∀ x ∈ l, x ≠ m) → chainIn g l → chainIn ((m, nd) :: g) l := by
  intro l
  induction l with
  | nil => intro _ _; trivial
  | cons n rest ih =>
      rintro hne ⟨hlk, hrest⟩
      refine ⟨?_, ih (fun x hx => hne x (by simp [hx])) hrest⟩
      rw [lookupSchema_cons, if_neg (fun he => hne n (by simp) he.symm)]
      exact hlk

theorem chainIn_chainGraph : ∀ names : List String, names.Nodup →
    chainIn (chainGraph names) names := by
  intro names
  induction names with
  | nil => intro _; trivial
  | cons n rest ih =>
      intro hnodup
      obtain ⟨hn, hrest⟩ := List.nodup_cons.mp hnodup
      refine ⟨?_, ?_⟩
      · show lookupSchema ((n, ⟨chainBodyProps rest⟩) :: chainGraph rest) n = _
        rw [lookupSchema_cons, if_pos rfl]
      · exact chainIn_extend n _ _ rest (fun x hx he => hn (he ▸ hx)) (ih hrest)

theorem chain_extract (g : Graph) (ceiling : Nat) :
    ∀ (cs : List String) (st : VisitState) (fuel : Nat),
      chainIn g cs → cs.Nodup → (∀ m ∈ cs, visitCount st m = 0) →
      fuel + visitTotal st = ceiling + 1 →
      defsNamesDeep (extractProps g ceiling fuel st (chainBodyProps cs)).2 =
        cs.take (ceiling - visitTotal st) := by
  intro cs
  induction cs with
  | nil =>
      intro st fuel _ _ _ _
      cases fuel with
      | zero => simp [extractProps_zero, chainBodyProps, defsNamesDeep, defsDeep]
      | succ fuel =>
          show defsNamesDeep (extractProps g ceiling (fuel + 1) st
            (chainEndProp :: [])).2 = _
          rw [extractProps_cons, extractProps_nil]
          have hexp : expandRef g ceiling fuel st chainEndProp.kind = none := rfl
          rw [hexp]
          simp [defsNamesDeep, defsDeep]
  | cons n cs' ih =>
      rintro st fuel ⟨hlkn, hchain'⟩ hnodup hfresh hfuel
      obtain ⟨hn, hnd'⟩ := List.nodup_cons.mp hnodup
      cases fuel with
      | zero =>
          have h0 : ceiling - visitTotal st = 0 := by omega
          rw [extractProps_zero]
          simp [defsNamesDeep, defsDeep, h0]
      | succ fuel =>
          show defsNamesDeep (extractProps g ceiling (fuel + 1) st
            (chainProp n :: [])).2 = _
          rw [extractProps_cons, extractProps_nil]
          have hcn : visitCount st n = 0 := hfresh n (by simp)
          by_cases hd : ceiling ≤ visitTotal st
          · have hzero : ceiling - visitTotal st = 0 := by omega
            have hexp : expandRef g ceiling fuel st (chainProp n).kind = none := by
              show expandRef g ceiling fuel st (.refSchema n) = none
              simp only [expandRef, refTarget]
              rw [if_neg (by omega : ¬ visitCount st n > 1), if_pos hd]
            rw [hexp]
            simp [defsNamesDeep, defsDeep, hzero]
          · have hexp : expandRef g ceiling fuel st (chainProp n).kind =
                some (.mk n
                  (extractProps g ceiling fuel (bumpVisit st n) (chainBodyProps cs')).1
                  (extractProps g ceiling fuel (bumpVisit st n) (chainBodyProps cs')).2) := by
              show expandRef g ceiling fuel st (.refSchema n) = _
              simp only [expandRef, refTarget]
              rw [if_neg (by omega : ¬ visitCount st n > 1), if_neg hd, hlkn]
            rw [hexp]
            have hih := ih (bumpVisit st n) fuel hchain' hnd'
              (fun m hm => by
                rw [visitCount_bump_ne st n m (fun he => hn (he ▸ hm))]
                exact hfresh m (by simp [hm]))
              (by rw [visitTotal_bump]; omega)
            simp only [Option.toList_some, List.append_nil]
            rw [defsNamesDeep_one, hih, visitTotal_bump]
            have hsucc : ceiling - visitTotal st = (ceiling - (visitTotal st + 1)) + 1 := by
              omega
            rw [hsucc, List.take_succ_cons]

/-- Claim C5: for a reference chain of distinct named schemas, expansion
stops at the configured depth ceiling: the nested definition sections of
a top-level extraction of the chain's head are exactly the chain members
at depth ≤ ceiling (the first ceiling − 1 successors, in order), and
every member beyond the bound is absent. -/
theorem c5_chain_stops_at_ceiling (names : List String) (c : String) (cs : List String)
    (ceiling : Nat) (hnames : names = c :: cs) (hnodup : names.Nodup) :
    defsNamesDeep (extractTop (chainGraph names) ceiling c).2 = cs.take (ceiling - 1) ∧
    ∀ m ∈ cs.drop (ceiling - 1),
      m ∉ defsNamesDeep (extractTop (chainGraph names) ceiling c).2 := by
  subst hnames
  obtain ⟨hc, hnd'⟩ := List.nodup_cons.mp hnodup
  obtain ⟨hlkc, hchain'⟩ := chainIn_chainGraph (c :: cs) hnodup
  have hmain : defsNamesDeep (extractTop (chainGraph (c :: cs)) ceiling c).2 =
      cs.take (ceiling - 1) := by
    unfold extractTop
    rw [hlkc]
    have := chain_extract (chainGraph (c :: cs)) ceiling cs (bumpVisit [] c) ceiling
      hchain' hnd'
      (fun m hm => by
        rw [visitCount_bump_ne [] c m (fun he => hc (he ▸ hm))]
        rfl)
      (by rw [visitTotal_bump]; rfl)
    rw [visitTotal_bump] at this
    exact this
  refine ⟨hmain, ?_⟩
  intro m hm hmem
  rw [hmain] at hmem
  exact (List.disjoint_take_drop hnd' (le_refl (ceiling - 1))) hmem hm

/-- Claim C5 witness: a 12-schema chain with the default ceiling 10 keeps
the sections at depths 2..10 and drops the two beyond the bound. -/
theorem c5_chain_stops_at_ceiling_witness :
    defsNamesDeep (extractTop (chainGraph
      ["L1", "L2", "L3", "L4", "L5", "L6", "L7", "L8", "L9", "L10", "L11", "L12"])
      10 "L1").2 = ["L2", "L3", "L4", "L5", "L6", "L7", "L8", "L9", "L10"] ∧
    "L11" ∉ defsNamesDeep (extractTop (chainGraph
      ["L1", "L2", "L3", "L4", "L5", "L6", "L7", "L8", "L9", "L10", "L11", "L12"])
      10 "L1").2 := by
  have h := c5_chain_stops_at_ceiling
    ["L1", "L2", "L3", "L4", "L5", "L6", "L7", "L8", "L9", "L10", "L11", "L12"]
    "L1" ["L2", "L3", "L4", "L5", "L6", "L7", "L8", "L9", "L10", "L11", "L12"]
    10 rfl (by decide)
  refine ⟨h.1.trans (by decide), ?_⟩
  exact h.2 "L11" (by decide)

/-!  ## Array type labels -/

theorem str_data_append (a b : String) : (a ++ b).data = a.data ++ b.data := by
  cases a
  cases b
  rfl

theorem append_array_ne_objects (t : String) : t ++ " array" ≠ "array of objects" := by
  intro h
  have hd := congrArg (fun s : String => s.data.reverse.head?) h
  simp only [str_data_append, List.reverse_append] at hd
  have h1 : (" array".data).reverse = ['y', 'a', 'r', 'r', 'a', ' '] := rfl
  rw [h1] at hd
  have h2 : (("array of objects".data).reverse).head? = some 's' := rfl
  rw [h2] at hd
  simp at hd

theorem extract_scalar_only (g : Graph) (ceiling : Nat) :
    ∀ (fuel : Nat) (props : List SchemaProperty) (st : VisitState),
      (∀ q ∈ props, refTarget q.kind = none) →
      (extractProps g ceiling fuel st props).2 = [] := by
  intro fuel
  cases fuel with
  | zero => intro props st _; rw [extractProps_zero]
  | succ fuel =>
      intro props
      induction props with
      | nil => intro st _; rw [extractProps_nil]
      | cons q rest ihp =>
          intro st h
          rw [extractProps_cons]
          have hexp : expandRef g ceiling fuel st q.kind = none := by
            simp only [expandRef, h q (by simp)]
          rw [hexp]
          simp only [Option.toList_none, List.nil_append]
          exact ihp st (fun q' hq' => h q' (by simp [hq']))

theorem extractProps_snd_append (g : Graph) (ceiling fuel : Nat) (st : VisitState) :
    ∀ l₁ l₂ : List SchemaProperty,
      (extractProps g ceiling (fuel + 1) st (l₁ ++ l₂)).2 =
        (extractProps g ceiling (fuel + 1) st l₁).2 ++
        (extractProps g ceiling (fuel + 1) st l₂).2 := by
  intro l₁
  induction l₁ with
  | nil => intro l₂; rw [extractProps_nil]; rfl
  | cons q rest ihp =>
      intro l₂
      show (extractProps g ceiling (fuel + 1) st (q :: (rest ++ l₂))).2 = _
      rw [extractProps_cons, extractProps_cons, ihp, List.append_assoc]

/-- Claim C6: a field whose schema is an array of scalars is labelled
"scalarType array" and never "array of objects"; a field whose schema is
an array of the named object schema Item is labelled "array of Item",
and a top-level extraction of its container emits exactly one standalone
Item definition section. -/
theorem c6_array_labels_and_item_section (g : Graph) (ceiling : Nat) (s i : String)
    (node inode : SchemaNode) (p : SchemaProperty)
    (ps₁ ps₂ : List SchemaProperty)
    (hlk : lookupSchema g s = some node)
    (hprops : node.properties = ps₁ ++ p :: ps₂)
    (hscalar₁ : ∀ q ∈ ps₁, refTarget q.kind = none)
    (hscalar₂ : ∀ q ∈ ps₂, refTarget q.kind = none)
    (hpk : p.kind = .arrayRefSchema i)
    (hi : i ≠ "")
    (hlki : lookupSchema g i = some inode)
    (hiscalar : ∀ q ∈ inode.properties, refTarget q.kind = none)
    (hceil : 2 ≤ ceiling) :
    (∀ (q : SchemaProperty) (t : String), q.kind = .arrayScalar t →
      typeLabel (descriptorOf q) = t ++ " array" ∧
      typeLabel (descriptorOf q) ≠ "array of objects") ∧
    typeLabel (descriptorOf p) = "array of " ++ i ∧
    defsNamesDeep (extractTop g ceiling s).2 = [i] := by
  have his : i ≠ s := by
    intro he
    subst he
    rw [hlk] at hlki
    have hnode : node = inode := by injection hlki
    have hp : p ∈ inode.properties := by
      rw [← hnode, hprops]
      exact List.mem_append.mpr (Or.inr (List.mem_cons_self _ _))
    have := hiscalar p hp
    rw [hpk] at this
    simp [refTarget] at this
  refine ⟨?_, ?_, ?_⟩
  · intro q t hq
    constructor
    · simp [descriptorOf, hq, typeLabel]
    · rw [show typeLabel (descriptorOf q) = t ++ " array" by
        simp [descriptorOf, hq, typeLabel]]
      exact append_array_ne_objects t
  · simp [descriptorOf, hpk, typeLabel, hi]
  · unfold extractTop
    rw [hlk]
    show defsNamesDeep
      (extractProps g ceiling ceiling (bumpVisit [] s) node.properties).2 = [i]
    rw [hprops]
    obtain ⟨k, hk⟩ : ∃ k, ceiling = k + 1 := ⟨ceiling - 1, by omega⟩
    rw [hk]
    rw [extractProps_snd_append, extractProps_cons]
    have hcnt : visitCount (bumpVisit [] s) i = 0 := by
      rw [visitCount_bump_ne [] s i his]
      rfl
    have htot : visitTotal (bumpVisit [] s) = 1 := by
      rw [visitTotal_bump]
      rfl
    have hexp : expandRef g (k + 1) k (bumpVisit [] s) p.kind =
        some (.mk i
          (extractProps g (k + 1) k (bumpVisit (bumpVisit [] s) i) inode.properties).1
          (extractProps g (k + 1) k (bumpVisit (bumpVisit [] s) i) inode.properties).2) := by
      simp only [expandRef, hpk, refTarget]
      rw [if_neg (by omega : ¬ visitCount (bumpVisit [] s) i > 1),
        if_neg (by omega : ¬ k + 1 ≤ visitTotal (bumpVisit [] s)), hlki]
    rw [hexp]
    rw [extract_scalar_only g (k + 1) (k + 1) ps₁ (bumpVisit [] s) hscalar₁]
    rw [extract_scalar_only g (k + 1) (k + 1) ps₂ (bumpVisit [] s) hscalar₂]
    have hinner : (extractProps g (k + 1) k
        (bumpVisit (bumpVisit [] s) i) inode.properties).2 = [] :=
      extract_scalar_only g (k + 1) k inode.properties _ hiscalar
    rw [hinner]
    simp only [Option.toList_some, List.nil_append, List.append_nil]
    rw [defsNamesDeep_one, defsNamesDeep_nil]

/-- Claim C6 witness: the ItemList/Item document — the scalar-array field
labels as "string array", the items field labels as "array of Item", and
exactly the one Item section is produced. -/
theorem c6_array_labels_and_item_section_witness :
    typeLabel (descriptorOf ⟨"ids", .arrayScalar "string", false, "", []⟩) =
      "string" ++ " array" ∧
    typeLabel (descriptorOf ⟨"ids", .arrayScalar "string", false, "", []⟩) ≠
      "array of objects" ∧
    typeLabel (descriptorOf
      ⟨"items", .arrayRefSchema "Item", false, "List of items", []⟩) =
      "array of " ++ "Item" ∧
    defsNamesDeep (extractTop
      [("ItemList", ⟨[⟨"items", .arrayRefSchema "Item", false, "List of items", []⟩]⟩),
       ("Item", ⟨[⟨"id", .scalar "string", true, "Item ID", []⟩,
         ⟨"name", .scalar "string", true, "Item name", []⟩]⟩)]
      10 "ItemList").2 = ["Item"] := by
  have h := c6_array_labels_and_item_section
    [("ItemList", ⟨[⟨"items", .arrayRefSchema "Item", false, "List of items", []⟩]⟩),
     ("Item", ⟨[⟨"id", .scalar "string", true, "Item ID", []⟩,
       ⟨"name", .scalar "string", true, "Item name", []⟩]⟩)]
    10 "ItemList" "Item"
    ⟨[⟨"items", .arrayRefSchema "Item", false, "List of items", []⟩]⟩
    ⟨[⟨"id", .scalar "string", true, "Item ID", []⟩,
      ⟨"name", .scalar "string", true, "Item name", []⟩]⟩
    ⟨"items", .arrayRefSchema "Item", false, "List of items", []⟩
    [] [] rfl rfl (by intro q hq; simp at hq) (by intro q hq; simp at hq)
    rfl (by simp) rfl
    (by
      intro q hq
      rcases List.mem_cons.mp hq with rfl | hq'
      · rfl
      · rcases List.mem_cons.mp hq' with rfl | hq''
        · rfl
        · simp at hq'')
    (by omega)
  obtain ⟨h1, h2, h3⟩ := h
  exact ⟨(h1 _ "string" rfl).1, (h1 _ "string" rfl).2, h2, h3⟩

/-!  ## Shared-schema usage analysis -/

theorem sharedNames_nodup (es : List UsageEndpoint) : (sharedNames es).Nodup :=
  (List.nodup_dedup _).filter _

theorem sharedBlock_keys (g : Graph) (es : List UsageEndpoint) (ceiling : Nat) :
    (sharedBlock g es ceiling).map (fun x => x.1) = sharedNames es := by
  unfold sharedBlock
  rw [List.map_map]
  exact List.map_id'' (fun _ => rfl) _

theorem mem_usedNames_of_two_keys (es : List UsageEndpoint) (n : String)
    (h : 2 ≤ (usageKeys es n).length) : n ∈ usedNames es := by
  have hne : usageKeys es n ≠ [] := by
    intro he
    rw [he] at h
    simp at h
  obtain ⟨k, hk⟩ := List.exists_mem_of_ne_nil _ hne
  unfold usageKeys at hk
  have hk' := List.mem_dedup.mp hk
  obtain ⟨pr, hpr, _⟩ := List.mem_map.mp hk'
  have hf := List.mem_filter.mp hpr
  have hpr1 : pr.1 = n := by simpa using hf.2
  unfold usedNames
  rw [List.mem_dedup]
  exact List.mem_map.mpr ⟨pr, hf.1, hpr1⟩

/-- Claim C1: a named schema referenced through JSON request or response
bodies from at least two distinct endpoint keys (duplicate use inside
one endpoint collapsing to one key) gets exactly one definition in the
global shared block, and every endpoint body site referencing it renders
only a cross-reference; a schema whose uses all lie within a single
endpoint key does not qualify, and the shared block carries no
definition for it. -/
theorem c1_shared_schema_analysis (g : Graph) (es : List UsageEndpoint)
    (ceiling : Nat) (n : String) :
    (2 ≤ (usageKeys es n).length →
      ((sharedBlock g es ceiling).map (fun x => x.1)).count n = 1 ∧
      (∀ e ∈ es, ∀ r ∈ e.requestRef :: e.responseRefs.map Prod.snd, r = some n →
        renderBodySite g es ceiling r = some (.crossref n))) ∧
    ((usageKeys es n).length ≤ 1 →
      ((sharedBlock g es ceiling).map (fun x => x.1)).count n = 0) := by
  constructor
  · intro h
    constructor
    · rw [sharedBlock_keys]
      refine List.count_eq_one_of_mem (sharedNames_nodup es) ?_
      unfold sharedNames
      refine List.mem_filter.mpr ⟨mem_usedNames_of_two_keys es n h, ?_⟩
      simp only [decide_eq_true_eq]
      exact h
    · rintro e _ r _ rfl
      simp only [renderBodySite]
      rw [if_pos (show isShared es n from h)]
  · intro h
    rw [sharedBlock_keys]
    refine List.count_eq_zero.mpr ?_
    intro hm
    have hf := List.mem_filter.mp hm
    have : 2 ≤ (usageKeys es n).length := by simpa using hf.2
    omega

/-- Claim C1 witness: User is used by two distinct endpoints (shared:
one shared-block entry, sites render cross-references), while Solo is
used twice inside a single endpoint (not shared: no shared-block
entry). -/
theorem c1_shared_schema_analysis_witness :
    (([(("POST" : String) ++ " " ++ "/users"), ("GET" : String) ++ " " ++ "/users/id"].length = 2 →
      True) ∧
    ((sharedBlock []
        [⟨"POST", "/users", some "User", [("201", some "User")]⟩,
         ⟨"GET", "/users/id", none, [("200", some "User")]⟩,
         ⟨"POST", "/solo", some "Solo", [("201", some "Solo")]⟩]
        10).map (fun x => x.1)).count "User" = 1 ∧
    renderBodySite []
        [⟨"POST", "/users", some "User", [("201", some "User")]⟩,
         ⟨"GET", "/users/id", none, [("200", some "User")]⟩,
         ⟨"POST", "/solo", some "Solo", [("201", some "Solo")]⟩]
        10 (some "User") = some (.crossref "User") ∧
    ((sharedBlock []
        [⟨"POST", "/users", some "User", [("201", some "User")]⟩,
         ⟨"GET", "/users/id", none, [("200", some "User")]⟩,
         ⟨"POST", "/solo", some "Solo", [("201", some "Solo")]⟩]
        10).map (fun x => x.1)).count "Solo" = 0) := by
  have hU := (c1_shared_schema_analysis []
    [⟨"POST", "/users", some "User", [("201", some "User")]⟩,
     ⟨"GET", "/users/id", none, [("200", some "User")]⟩,
     ⟨"POST", "/solo", some "Solo", [("201", some "Solo")]⟩]
    10 "User").1 (by decide)
  have hS := (c1_shared_schema_analysis []
    [⟨"POST", "/users", some "User", [("201", some "User")]⟩,
     ⟨"GET", "/users/id", none, [("200", some "User")]⟩,
     ⟨"POST", "/solo", some "Solo", [("201", some "Solo")]⟩]
    10 "Solo").2 (by decide)
  refine ⟨fun _ => trivial, hU.1, ?_, hS⟩
  exact hU.2 ⟨"POST", "/users", some "User", [("201", some "User")]⟩
    (List.mem_cons_self _ _) (some "User") (List.mem_cons_self _ _) rfl

/-- Claim C10 witness: three codes declared out of order render in
ascending order, and a permuted declaration renders identically. -/
theorem c10_response_code_order_witness :
    responsesRenderOrder
      [("404", ⟨"", []⟩), ("200", ⟨"", []⟩), ("201", ⟨"", []⟩)] = ["200", "201", "404"] ∧
    responsesRenderOrder [("404", ⟨"", []⟩), ("200", ⟨"", []⟩), ("201", ⟨"", []⟩)] =
      responsesRenderOrder [("200", ⟨"", []⟩), ("201", ⟨"", []⟩), ("404", ⟨"", []⟩)] := by
  constructor
  · decide
  · exact (c10_response_code_order
      [("404", ⟨"", []⟩), ("200", ⟨"", []⟩), ("201", ⟨"", []⟩)]).2.2.2
      [("200", ⟨"", []⟩), ("201", ⟨"", []⟩), ("404", ⟨"", []⟩)] (by decide)

end OpenapiMD
